import Mathlib

/-!
# Verification of the crawler core (0xhtml/crawler)

Shallow embedding of the crawler's core data model and operations, and
theorems settling the specification claims against it.

The embedding covers:
* the worker/scheduler loop of `crawler/crawler.py` (`Crawler.worker`,
  `Crawler._update_timeouts`, `Crawler._load_page`, `Crawler.__getstate__`)
  as a labelled transition system over an abstract URL type;
* the header guard `_is_valid_response` of `crawler/crawler.py`;
* the retry wrapper `HTTPXClient.retrying_request` of
  `crawler/httpxclient.py`;
* the robots-policy classification of `crawler/robots.py`
  (`RobotsFile.parse` and the exception handling of
  `RobotsFileTable._get`), and `RobotsFile.timeout`;
* the link harvest `get_links` of `crawler/utils.py`;
* the URL value type of `crawler/http.py` (`URL.from_string`,
  `URL.normalize`, `URL.join`-adjacent pieces, `URL.__str__`), down to the
  character level, with the behaviour of the external `rfc3986` and
  `urllib.parse.quote`/`unquote` collaborators modelled from the
  specification's description of `parse` (strip ASCII control/whitespace,
  lowercase the host, decode unreserved percent-escapes and uppercase the
  remaining hex, resolve dot-segments on the path).
-/

set_option maxRecDepth 4096

namespace Crawler

/-! ## Scheduler model (`crawler/crawler.py`, `Crawler.worker`)

The worker loop runs under cooperative (asyncio) single-threaded
scheduling: every block of code between two `await` points executes
atomically.  `Crawler.worker` has exactly these atomic blocks touching
scheduler state:

* the *dispatch* block (lines 191-208): purge expired timeouts
  (`_update_timeouts`), compute
  `pending_urls.key_difference(active_netlocs ∪ timeouts.keys())`, pop one
  URL from it, remove it from the pending set and add it to the active set;
* the *timeout-record* block inside `_load_page` (lines 156-158): store a
  wallclock value under the final response's netloc;
* the *insert* block inside `_load_page` (lines 179-184): insert a row
  into the document store;
* the *complete* block (lines 210-214): merge the harvested links minus
  the currently active URLs into the pending set, then remove the finished
  URL from the active set.

URLs are abstract (`U`) with a key function `key : U → K` standing for
`url.netloc`; the document store is tracked as the set of URLs having a
row.  Times are rationals.
-/

variable {U K : Type} [DecidableEq U] [DecidableEq K]

/-- `BucketSet.key_difference` (crawler/bucketset.py lines 49-56): all items
stored in a bucket whose key is not in `keys`. -/
def keyDifference (key : U → K) (pending : Finset U) (keys : Finset K) : Finset U :=
  pending.filter (fun u => key u ∉ keys)

/-- State of one `Crawler` as seen by the worker loop: `_pending_urls`,
`_active_urls`, `_timeouts`, plus the set of URLs having a row in the
documents table (the visited set of the spec). -/
structure SchedState (U K : Type) where
  pending : Finset U
  active : Finset U
  timeouts : K → Option ℚ
  store : Finset U

/-- `Crawler._update_timeouts` (lines 128-134): drop every entry whose
time is not strictly in the future. -/
def purgeTimeouts (timeouts : K → Option ℚ) (ctime : ℚ) : K → Option ℚ :=
  fun k => match timeouts k with
    | some t => if t > ctime then some t else none
    | none => none

/-- Keys on which `purgeTimeouts timeouts ctime` is defined, i.e. netlocs
still under cooldown at `ctime`. -/
def timeoutKeys (timeouts : K → Option ℚ) (ctime : ℚ) (k : K) : Prop :=
  purgeTimeouts timeouts ctime k ≠ none

/-- One scheduler event: a dispatch at wallclock `t`, a cooldown record, a
document-store insert, or a task completion returning harvested links. -/
inductive SchedEvent (U K : Type) where
  | dispatch (u : U) (t : ℚ)
  | recordTimeout (k : K) (t : ℚ)
  | insertDoc (u : U)
  | complete (u : U) (links : Finset U)

/-- The atomic blocks of `Crawler.worker` and `Crawler._load_page` as a
labelled step relation (see the section comment for the line-by-line
mapping). -/
inductive Step (key : U → K) : SchedState U K → SchedEvent U K → SchedState U K → Prop where
  | dispatch {s : SchedState U K} {u : U} {t : ℚ}
      (hu : u ∈ s.pending)
      (hkey : key u ∉ s.active.image key)
      (htime : purgeTimeouts s.timeouts t (key u) = none) :
      Step key s (.dispatch u t)
        ⟨s.pending.erase u, insert u s.active, purgeTimeouts s.timeouts t, s.store⟩
  | recordTimeout {s : SchedState U K} (k : K) (t : ℚ) :
      Step key s (.recordTimeout k t)
        ⟨s.pending, s.active, Function.update s.timeouts k (some t), s.store⟩
  | insertDoc {s : SchedState U K} (u : U) :
      Step key s (.insertDoc u)
        ⟨s.pending, s.active, s.timeouts, insert u s.store⟩
  | complete {s : SchedState U K} {u : U} (links : Finset U)
      (hu : u ∈ s.active) :
      Step key s (.complete u links)
        ⟨s.pending ∪ (links \ s.active), s.active.erase u, s.timeouts, s.store⟩

/-- States reachable from a start state with no active URL and no cooldown
(any frontier contents, matching `Crawler.__init__` followed by `add_url`
or `load_urls_db`). -/
inductive Reachable (key : U → K) : SchedState U K → Prop where
  | init (pending : Finset U) : Reachable key ⟨pending, ∅, fun _ => none, ∅⟩
  | step {s : SchedState U K} {e : SchedEvent U K} {s' : SchedState U K}
      (hr : Reachable key s) (hs : Step key s e s') : Reachable key s'

/-- All active URLs have pairwise distinct keys (netlocs). -/
def hostExclusive (key : U → K) (s : SchedState U K) : Prop :=
  ∀ u ∈ s.active, ∀ v ∈ s.active, u ≠ v → key u ≠ key v

/-- `RobotsFile.timeout` (crawler/robots.py lines 41-51): the recorded
cooldown is `time.time() + max(crawl_delay or 0, 1 / request_rate)` where
an absent request rate counts as infinite, i.e. contributes `0`. -/
def robotsTimeout (now : ℚ) (crawlDelay : Option ℚ) (requestRate : Option (ℚ × ℚ)) : ℚ :=
  let delay := crawlDelay.getD 0
  let rateInv := match requestRate with
    | some r => r.2 / r.1
    | none => 0
  now + max delay rateInv

/-- C1: in any reachable scheduler state, no two distinct active URLs share
a netloc: for every host key there is at most one fetch in flight, for any
interleaving of worker steps and any frontier contents. -/
theorem C1_host_exclusive (key : U → K) (s : SchedState U K)
    (h : Reachable key s) : hostExclusive key s := by
  induction h with
  | init pending =>
    intro u hu
    simp only [Finset.not_mem_empty] at hu
  | step hr hs ih =>
    cases hs with
    | dispatch hu hkey htime =>
      intro a ha b hb hab
      rcases Finset.mem_insert.mp ha with rfl | ha' <;>
        rcases Finset.mem_insert.mp hb with rfl | hb'
      · exact absurd rfl hab
      · exact fun hk => hkey (hk ▸ Finset.mem_image_of_mem key hb')
      · exact fun hk => hkey (hk ▸ Finset.mem_image_of_mem key ha')
      · exact ih a ha' b hb' hab
    | recordTimeout k t => exact ih
    | insertDoc u => exact ih
    | complete links hu =>
      intro a ha b hb hab
      exact ih a (Finset.mem_of_mem_erase ha) b (Finset.mem_of_mem_erase hb) hab

/-- Witness for C1 at a concrete one-dispatch trace. -/
theorem C1_host_exclusive_witness :
    hostExclusive (fun k : ℕ => k)
      ⟨Finset.erase {0} 0, insert 0 ∅, purgeTimeouts (fun _ => none) 0, ∅⟩ :=
  C1_host_exclusive (fun k => k) _
    (Reachable.step (Reachable.init {0})
      (Step.dispatch (by decide) (by decide) rfl))

/-- C4: (i) a URL `u` is dispatched at wallclock `t` only when every
cooldown recorded for `key u` satisfies `¬ t < c` (the worker purges
expired timeouts and excludes every netloc still in the timeout map);
(ii) in particular a cooldown recorded via `RobotsFile.timeout` at `t₀`
with `Crawl-delay: 2` and no request rate forces `t₀ + 2 ≤ t` for the next
dispatch on that netloc. -/
theorem C4_cooldown_gates_dispatch (key : U → K) :
    (∀ (s s' : SchedState U K) (u : U) (t : ℚ),
      Step key s (.dispatch u t) s' →
      ∀ c : ℚ, s.timeouts (key u) = some c → ¬ t < c) ∧
    (∀ (s s' : SchedState U K) (u : U) (t t₀ : ℚ),
      Step key s (.dispatch u t) s' →
      s.timeouts (key u) = some (robotsTimeout t₀ (some 2) none) →
      t₀ + 2 ≤ t) := by
  have main : ∀ (s s' : SchedState U K) (u : U) (t : ℚ),
      Step key s (.dispatch u t) s' →
      ∀ c : ℚ, s.timeouts (key u) = some c → ¬ t < c := by
    intro s s' u t hstep c hc
    cases hstep with
    | dispatch hu hkey htime =>
      unfold purgeTimeouts at htime
      rw [hc] at htime
      by_cases hgt : c > t
      · simp [hgt] at htime
      · exact fun hlt => hgt hlt
  refine ⟨main, ?_⟩
  intro s s' u t t₀ hstep hc
  have h := main s s' u t hstep _ hc
  have : robotsTimeout t₀ (some 2) none = t₀ + 2 := by
    unfold robotsTimeout
    simp
  rw [this] at h
  linarith [not_lt.mp h]

/-- Witness for C4 at a concrete dispatch step: cooldown 2 recorded via
`robotsTimeout 0 (some 2) none`, dispatch at time 5. -/
theorem C4_cooldown_gates_dispatch_witness :
    (¬ (5 : ℚ) < 2) ∧ ((0 : ℚ) + 2 ≤ 5) := by
  have step : Step (fun k : ℕ => k)
      ⟨{0}, ∅, fun _ => some (robotsTimeout 0 (some 2) none), ∅⟩
      (.dispatch 0 5)
      ⟨Finset.erase {0} 0, insert 0 ∅,
        purgeTimeouts (fun _ => some (robotsTimeout 0 (some 2) none)) 5, ∅⟩ :=
    Step.dispatch (by decide) (by decide)
      (by unfold purgeTimeouts robotsTimeout; norm_num)
  have hto : (fun _ : ℕ => some (robotsTimeout 0 (some 2) none)) 0
      = some (robotsTimeout (0 : ℚ) (some 2) none) := rfl
  refine ⟨?_, (C4_cooldown_gates_dispatch (fun k : ℕ => k)).2 _ _ 0 5 0 step hto⟩
  have h1 := (C4_cooldown_gates_dispatch (fun k : ℕ => k)).1 _ _ 0 5 step
    (robotsTimeout 0 (some 2) none) hto
  have : robotsTimeout (0 : ℚ) (some 2) none = 2 := by
    unfold robotsTimeout; simp
  rwa [this] at h1

/-- C5 counterexample: the merge after a completed task subtracts only the
currently *active* URLs (crawler.py line 211:
`.difference(self._active_urls)`), not the document store, so a URL that
already has a row in the store re-enters the frontier: after page `0` is
stored, a later tick harvesting a link back to `0` leaves
`frontier ∩ visited = {0}`. -/
theorem C5_counterexample :
    ¬ ∀ (s s' : SchedState ℕ ℕ) (u : ℕ) (links : Finset ℕ),
      Reachable (fun k => k) s → Step (fun k => k) s (.complete u links) s' →
      s'.pending ∩ s'.store = ∅ := by
  intro h
  -- trace: dispatch 0, store it, complete with no links, dispatch 1,
  -- complete 1 harvesting a link back to 0
  have r0 : Reachable (fun k : ℕ => k) ⟨{0, 1}, ∅, fun _ => none, ∅⟩ :=
    Reachable.init {0, 1}
  have r1 := Reachable.step r0
    (Step.dispatch (u := 0) (t := 0) (by decide) (by decide) rfl)
  have r2 := Reachable.step r1 (Step.insertDoc 0)
  have r3 := Reachable.step r2 (Step.complete (u := 0) ∅ (by decide))
  have r4 := Reachable.step r3
    (Step.dispatch (u := 1) (t := 0) (by decide) (by decide) rfl)
  have h5 := h _ _ 1 {0} r4 (Step.complete (u := 1) {0} (by decide))
  rw [Finset.eq_empty_iff_forall_not_mem] at h5
  exact h5 0 (by decide)

/-- C5 amended: after each scheduler tick the merged link set excludes the
currently *active* URLs, so `frontier ∩ active = ∅` is re-established (the
document store is not consulted by the merge; a stored URL may re-enter
the frontier and is only skipped later by the exists-check at fetch
time). -/
theorem C5_frontier_active_disjoint (key : U → K) (s : SchedState U K)
    (h : Reachable key s) : s.pending ∩ s.active = ∅ := by
  induction h with
  | init pending => simp
  | step hr hs ih =>
    have ih' : ∀ x, x ∈ _ → x ∈ _ → False := fun x hx hx' =>
      Finset.not_mem_empty x (ih ▸ Finset.mem_inter.mpr ⟨hx, hx'⟩)
    cases hs with
    | dispatch hu hkey htime =>
      ext x
      simp only [Finset.mem_inter, Finset.not_mem_empty, iff_false, not_and]
      intro hx hx'
      rcases Finset.mem_insert.mp hx' with rfl | hmem
      · exact absurd hx (Finset.not_mem_erase x _)
      · exact ih' x (Finset.mem_of_mem_erase hx) hmem
    | recordTimeout k t =>
      ext x
      simp only [Finset.mem_inter, Finset.not_mem_empty, iff_false, not_and]
      exact fun hx hx' => ih' x hx hx'
    | insertDoc u =>
      ext x
      simp only [Finset.mem_inter, Finset.not_mem_empty, iff_false, not_and]
      exact fun hx hx' => ih' x hx hx'
    | complete links hu =>
      ext x
      simp only [Finset.mem_inter, Finset.not_mem_empty, iff_false, not_and]
      intro hx hx'
      have hx'' := Finset.mem_of_mem_erase hx'
      rcases Finset.mem_union.mp hx with hp | hl
      · exact ih' x hp hx''
      · exact absurd hx'' (Finset.mem_sdiff.mp hl).2

/-- Witness for C5 amended at a concrete one-dispatch trace. -/
theorem C5_frontier_active_disjoint_witness :
    (SchedState.pending ⟨Finset.erase {0} 0, insert 0 ∅,
        purgeTimeouts (fun _ : ℕ => (none : Option ℚ)) 0, (∅ : Finset ℕ)⟩) ∩
      (SchedState.active ⟨Finset.erase {0} 0, insert 0 ∅,
        purgeTimeouts (fun _ : ℕ => (none : Option ℚ)) 0, (∅ : Finset ℕ)⟩) = ∅ :=
  C5_frontier_active_disjoint (fun k : ℕ => k) _
    (Reachable.step (Reachable.init {0})
      (Step.dispatch (by decide) (by decide) rfl))

/-! ## HTTP responses and the header guard
(`crawler/crawler.py`, `_is_valid_response`, lines 21-39) -/

/-- Request method of the response's originating request. -/
inductive Method where
  | head
  | get
deriving DecidableEq

/-- An HTTP response as `_is_valid_response` and `_load_page` see it:
final URL (httpx followed redirects), status code, originating request
method, and headers (httpx headers are case-insensitive; keys are
modelled lowercased). -/
structure Response (Url : Type) where
  url : Url
  status : ℕ
  method : Method
  headers : List (String × String)

/-- `httpx.Response.is_success`: status in 2xx. -/
def isSuccess (s : ℕ) : Bool := decide (200 ≤ s ∧ s < 300)

/-- `httpx.Response.is_client_error`: status in 4xx. -/
def isClientError (s : ℕ) : Bool := decide (400 ≤ s ∧ s < 500)

/-- `headers.get(name, default)`. -/
def headerGet (headers : List (String × String)) (name default : String) : String :=
  ((headers.find? (fun p => p.1 = name)).map Prod.snd).getD default

/-- `headers.get(name)` with no default (`None` when absent). -/
def headerFind (headers : List (String × String)) (name : String) : Option String :=
  (headers.find? (fun p => p.1 = name)).map Prod.snd

/-- Contiguous-sublist test, auxiliary to `containsSub`. -/
def isSubListOf (sub : List Char) : List Char → Bool
  | [] => sub.isEmpty
  | c :: rest => sub.isPrefixOf (c :: rest) || isSubListOf sub rest

/-- Python's `sub in s` substring test. -/
def containsSub (s sub : String) : Bool := isSubListOf sub.data s.data

/-- Python's `s.startswith(pre)`. -/
def strStartsWith (s pre : String) : Bool := pre.data.isPrefixOf s.data

/-- Split a character list at every character satisfying `p`. -/
def splitPred (p : Char → Bool) : List Char → List Char → List (List Char)
  | [], acc => [acc.reverse]
  | c :: rest, acc =>
    if p c then acc.reverse :: splitPred p rest []
    else splitPred p rest (c :: acc)

/-- The `Content-Type` value used by `_is_valid_response`: header value,
defaulting to `"text/html"` for HEAD requests and `""` otherwise
(crawler.py lines 26-29). -/
def contentTypeOf {Url : Type} (r : Response Url) : String :=
  headerGet r.headers "content-type"
    (match r.method with | .head => "text/html" | .get => "")

/-- `_is_valid_response` (crawler.py lines 21-39): require a 2xx status,
a `Content-Type` starting with `text/html`, and an `X-Robots-Tag` that
does not contain `nofollow`. -/
def isValidResponse {Url : Type} (r : Response Url) : Bool :=
  if ¬ isSuccess r.status then false
  else if ¬ strStartsWith (contentTypeOf r) "text/html" then false
  else if containsSub (headerGet r.headers "x-robots-tag" "") "nofollow" then false
  else true

/-- Lowercased alphanumeric words of a header value, for word-boundary
matching. -/
def wordsOf (s : String) : List (List Char) :=
  (splitPred (fun c => ¬ c.isAlphanum) (s.data.map Char.toLower) []).filter
    (fun w => w ≠ [])

/-- Modelled from the spec: the header-level guard the claim describes
(spec §4.5) — `Content-Type` starts with `text/html`; `Content-Language`,
if present, contains `en` or `de` with word-boundary, case-insensitive
matching (absent header accepted); no `X-Robots-Tag` containing
`nofollow`.  This guard, with its `Content-Language` clause, exists in no
function under `src/`; it is stated here only to compare with
`isValidResponse`. -/
def specHeaderGuardAccepts {Url : Type} (r : Response Url) : Bool :=
  strStartsWith (contentTypeOf r) "text/html" &&
    (match headerFind r.headers "content-language" with
      | none => true
      | some cl => decide ("en".data ∈ wordsOf cl ∨ "de".data ∈ wordsOf cl)) &&
    ! containsSub (headerGet r.headers "x-robots-tag" "") "nofollow"

/-- C7 counterexample: `_is_valid_response` checks no `Content-Language`
header at all (a 200 `text/html` response declaring `Content-Language:
fr` passes the guard), and it additionally rejects every non-2xx response
(a 404 `text/html` response is skipped although all three spec conditions
hold). -/
theorem C7_counterexample :
    @isValidResponse Unit
        ⟨(), 200, .get,
          [("content-type", "text/html"), ("content-language", "fr")]⟩ = true ∧
      @specHeaderGuardAccepts Unit
        ⟨(), 200, .get,
          [("content-type", "text/html"), ("content-language", "fr")]⟩ = false ∧
      @isValidResponse Unit
        ⟨(), 404, .get, [("content-type", "text/html")]⟩ = false ∧
      @specHeaderGuardAccepts Unit
        ⟨(), 404, .get, [("content-type", "text/html")]⟩ = true := by
  refine ⟨?_, ?_, ?_, ?_⟩ <;> decide

/-- C7 amended: the header guard accepts a response iff its status is
2xx, its `Content-Type` (defaulting to `text/html` for HEAD requests and
to the empty string otherwise) starts with `text/html`, and its
`X-Robots-Tag` does not contain `nofollow`; there is no `Content-Language`
check (language is only checked later, on the parsed body, by
`get_lang`). -/
theorem C7_header_guard_iff {Url : Type} (r : Response Url) :
    isValidResponse r = true ↔
      isSuccess r.status = true ∧
        strStartsWith (contentTypeOf r) "text/html" = true ∧
        containsSub (headerGet r.headers "x-robots-tag" "") "nofollow" = false := by
  unfold isValidResponse
  cases h1 : isSuccess r.status <;>
    cases h2 : strStartsWith (contentTypeOf r) "text/html" <;>
      cases h3 : containsSub (headerGet r.headers "x-robots-tag" "") "nofollow" <;>
        simp

/-! ## The retry wrapper
(`crawler/httpxclient.py`, `HTTPXClient.retrying_request`, lines 26-50) -/

/-- Outcome of one transport attempt: a response (any status), a
transient error (`httpx.NetworkError`, `httpx.ProtocolError`,
`httpx.TimeoutException`), or a fatal error (`SSLError`,
`UnicodeEncodeError`, `httpx.DecodingError`, `httpx.TooManyRedirects`). -/
inductive AttemptResult (Url : Type) where
  | ok (r : Response Url)
  | transient
  | fatal

/-- Result of `retrying_request`: the returned value, the number of
transport attempts actually made, and the total back-off slept (seconds,
0.5 per retry). -/
structure RetryOutcome (Url : Type) where
  result : Option (Response Url)
  attempts : ℕ
  sleep : ℚ

/-- The `for _ in range(_MAX_RETRIES)` loop body of `retrying_request`
(httpxclient.py lines 30-50): attempt `i`; on a response return it; on a
fatal error return `None`; on a transient error sleep 0.5 s and retry;
when the loop exhausts, return `None`. -/
def retryLoop {Url : Type} (f : ℕ → AttemptResult Url) : ℕ → ℕ → RetryOutcome Url
  | _, 0 => ⟨none, 0, 0⟩
  | i, fuel + 1 =>
    match f i with
    | .ok r => ⟨some r, 1, 0⟩
    | .fatal => ⟨none, 1, 0⟩
    | .transient =>
      let rest := retryLoop f (i + 1) fuel
      ⟨rest.result, rest.attempts + 1, rest.sleep + 1/2⟩

/-- `HTTPXClient._MAX_RETRIES` (httpxclient.py line 15). -/
def MAX_RETRIES : ℕ := 2

/-- `retrying_request` (httpxclient.py lines 26-50), as a function of the
per-attempt transport outcomes. -/
def retryingRequest {Url : Type} (f : ℕ → AttemptResult Url) : RetryOutcome Url :=
  retryLoop f 0 MAX_RETRIES

/-- C8: the fetcher makes at most 2 attempts total; two transient
errors exhaust the retries with a total back-off of 1 s (0.5 s each) and
yield `None`; a fatal error on the first attempt yields `None` at once,
with no retry and no sleep; a response on an attempt is returned to the
caller as-is, whatever its status; a transient error followed by a
response returns that response after a single 0.5 s back-off. -/
theorem C8_retry_behaviour {Url : Type} :
    (∀ f : ℕ → AttemptResult Url, (retryingRequest f).attempts ≤ 2) ∧
    (∀ f : ℕ → AttemptResult Url,
      f 0 = .transient → f 1 = .transient →
      retryingRequest f = ⟨none, 2, 1⟩) ∧
    (∀ f : ℕ → AttemptResult Url,
      f 0 = .fatal → retryingRequest f = ⟨none, 1, 0⟩) ∧
    (∀ (f : ℕ → AttemptResult Url) (r : Response Url),
      f 0 = .ok r → retryingRequest f = ⟨some r, 1, 0⟩) ∧
    (∀ (f : ℕ → AttemptResult Url) (r : Response Url),
      f 0 = .transient → f 1 = .ok r →
      retryingRequest f = ⟨some r, 2, 1/2⟩) := by
  refine ⟨?_, ?_, ?_, ?_, ?_⟩
  · intro f
    unfold retryingRequest MAX_RETRIES retryLoop
    rcases h0 : f 0 with r | _ | _ <;> simp [h0, retryLoop]
    rcases h1 : f 1 with r | _ | _ <;> simp [h1, retryLoop]
  · intro f h0 h1
    unfold retryingRequest MAX_RETRIES retryLoop
    rw [h0]
    simp only [retryLoop]
    rw [h1]
    norm_num
  · intro f h0
    unfold retryingRequest MAX_RETRIES retryLoop
    rw [h0]
  · intro f r h0
    unfold retryingRequest MAX_RETRIES retryLoop
    rw [h0]
  · intro f r h0 h1
    unfold retryingRequest MAX_RETRIES retryLoop
    rw [h0]
    simp only [retryLoop]
    rw [h1]
    norm_num

/-- Witness for C8 at a concrete attempt sequence (always transient). -/
theorem C8_retry_behaviour_witness :
    @retryingRequest Unit (fun _ => .transient) = ⟨none, 2, 1⟩ :=
  (@C8_retry_behaviour Unit).2.1 (fun _ => .transient) rfl rfl

/-! ## Robots policy classification
(`crawler/robots.py`, `RobotsFile.parse` lines 22-29 and the exception
handling of `RobotsFileTable._get` lines 61-89) -/

/-- The policy a robots entry ends up with. -/
inductive RobotsPolicy where
  | rules
  | allowAll
  | disallowAll
deriving DecidableEq

/-- `RobotsFile.parse` (robots.py lines 22-29): 2xx parses the body as
rules; a 4xx other than 429 sets `allow_all`; everything else sets
`disallow_all`. -/
def robotsParse (status : ℕ) : RobotsPolicy :=
  if isSuccess status then .rules
  else if isClientError status ∧ status ≠ 429 then .allowAll
  else .disallowAll

/-- Outcome of the `pool.get` call in `RobotsFileTable._get` for the
robots.txt URL: a final (non-redirect) response, or one of the exceptions
it catches (`InvalidURLError`, `httpx.TooManyRedirects`, or any remaining
`HTTPError` transport error).  A redirect response recurses on the target
and ends in one of these outcomes. -/
inductive RobotsFetchOutcome where
  | response (status : ℕ)
  | invalidURL
  | tooManyRedirects
  | transportError

/-- The classification performed by `RobotsFileTable._get` (robots.py
lines 71-87): `InvalidURLError` and `httpx.TooManyRedirects` set
`allow_all`; an `HTTPError` transport error sets `disallow_all`; a
response is handed to `RobotsFile.parse`. -/
def robotsClassify : RobotsFetchOutcome → RobotsPolicy
  | .invalidURL => .allowAll
  | .tooManyRedirects => .allowAll
  | .transportError => .disallowAll
  | .response s => robotsParse s

/-- C3 counterexample: statuses 401 and 403 yield `allow_all` (robots.py
line 26 excludes only 429 from the 4xx branch), and a redirect loop /
too-many-redirects outcome yields `allow_all` (robots.py line 74 catches
`httpx.TooManyRedirects` together with `InvalidURLError`), where the
claim requires `disallow_all` for all three. -/
theorem C3_counterexample :
    robotsClassify (.response 401) = .allowAll ∧
      robotsClassify (.response 403) = .allowAll ∧
      robotsClassify .tooManyRedirects = .allowAll := by
  refine ⟨?_, ?_, rfl⟩ <;> decide

/-- C3 amended: after fetching robots.txt the cached policy is determined
by the outcome as follows — a 2xx response is parsed as robots rules;
every 4xx status other than 429 (401 and 403 included) yields
`allow_all`; 429 and every 5xx status yield `disallow_all`; a transport
error (the `HTTPError` family, the analogue of a failed fetch) yields
`disallow_all`; an invalid URL or a redirect loop / too many redirects
yields `allow_all`. -/
theorem C3_policy_classification :
    (∀ s, 200 ≤ s → s < 300 → robotsClassify (.response s) = .rules) ∧
    (∀ s, 400 ≤ s → s < 500 → s ≠ 429 → robotsClassify (.response s) = .allowAll) ∧
    (robotsClassify (.response 429) = .disallowAll) ∧
    (∀ s, 500 ≤ s → s < 600 → robotsClassify (.response s) = .disallowAll) ∧
    (robotsClassify .transportError = .disallowAll) ∧
    (robotsClassify .invalidURL = .allowAll) ∧
    (robotsClassify .tooManyRedirects = .allowAll) := by
  refine ⟨?_, ?_, by decide, ?_, rfl, rfl, rfl⟩
  · intro s h1 h2
    simp [robotsClassify, robotsParse, isSuccess, h1, h2]
  · intro s h1 h2 h3
    have : ¬ (200 ≤ s ∧ s < 300) := by omega
    simp [robotsClassify, robotsParse, isSuccess, isClientError, this, h1, h2, h3]
  · intro s h1 h2
    have hns : ¬ (200 ≤ s ∧ s < 300) := by omega
    have hnc : ¬ (400 ≤ s ∧ s < 500) := by omega
    simp [robotsClassify, robotsParse, isSuccess, isClientError, hns, hnc]

/-- Witness for C3 amended at concrete statuses. -/
theorem C3_policy_classification_witness :
    robotsClassify (.response 200) = .rules ∧
      robotsClassify (.response 404) = .allowAll ∧
      robotsClassify (.response 500) = .disallowAll :=
  ⟨C3_policy_classification.1 200 (by decide) (by decide),
    C3_policy_classification.2.1 404 (by decide) (by decide) (by decide),
    C3_policy_classification.2.2.2.1 500 (by decide) (by decide)⟩

/-! ## Pickled crawler state
(`crawler/crawler.py`, `Crawler.__getstate__`, lines 81-87) -/

/-- The live `Crawler` object: database connection and transport client
handles (abstract types `D` and `H`), the robots table (abstract `R`),
and the scheduler state. -/
structure CrawlerObj (U K R D H : Type) where
  dbConn : D
  httpxClient : H
  robots : R
  pending : Finset U
  active : Finset U
  timeouts : K → Option ℚ

/-- `_CrawlerState` (crawler.py lines 42-46): the triple pickled by
`__getstate__` — robots table, pending URLs, timeouts.  Its type contains
no database or transport handle. -/
structure CrawlerPickleState (U K R : Type) where
  robots : R
  pending : Finset U
  timeouts : K → Option ℚ

/-- `Crawler.__getstate__` (crawler.py lines 81-87): raise `RuntimeError`
when any URL is active, else return the `_CrawlerState` triple. -/
def getstate {U K R D H : Type} [DecidableEq U] (c : CrawlerObj U K R D H) :
    Except String (CrawlerPickleState U K R) :=
  if c.active ≠ ∅ then .error "Can't get state of active crawler."
  else .ok ⟨c.robots, c.pending, c.timeouts⟩

/-- C10: taking the snapshot state raises `RuntimeError` whenever the
active set is non-empty, and on an idle crawler returns exactly the
triple (robots table, pending-URL set, cooldown map) — a value of a type
with no database or transport handle in it. -/
theorem C10_getstate {U K R D H : Type} [DecidableEq U] (c : CrawlerObj U K R D H) :
    (c.active ≠ ∅ → getstate c = .error "Can't get state of active crawler.") ∧
    (c.active = ∅ → getstate c = .ok ⟨c.robots, c.pending, c.timeouts⟩) := by
  constructor
  · intro h
    simp [getstate, h]
  · intro h
    simp [getstate, h]

/-- Witness for C10 at two concrete crawlers (one active, one idle). -/
theorem C10_getstate_witness :
    getstate (⟨(), (), (), ∅, {0}, fun _ => none⟩ :
        CrawlerObj ℕ ℕ Unit Unit Unit) = .error "Can't get state of active crawler." ∧
      getstate (⟨(), (), (), {1}, ∅, fun _ => none⟩ :
        CrawlerObj ℕ ℕ Unit Unit Unit) = .ok ⟨(), {1}, fun _ => none⟩ :=
  ⟨(C10_getstate _).1 (by decide),
    (C10_getstate _).2 rfl⟩

/-! ## Page processing
(`crawler/crawler.py`, `Crawler._load_page`, lines 144-186)

`_load_page` fetches through `HTTPXClient`, which is constructed with
`follow_redirects=True` (httpxclient.py lines 17-24): redirects — cross
host or not — are followed transparently by the transport, and the
response's `.url` is the final URL of the chain.  The environment record
below packages the outcomes of the collaborator calls the function
makes. -/

/-- Outcomes of the collaborator calls made by one `_load_page(url)`
invocation. -/
structure LoadEnv (Url : Type) where
  /-- `robots_file_table.can_fetch(url)` -/
  canFetch : Bool
  /-- `retrying_head(url)`; the response's `url` is the final URL after
  any redirects -/
  headResponse : Option (Response Url)
  /-- `robots_file_table.timeout(url)` -/
  robotsTimeoutVal : Option ℚ
  /-- `retrying_get(head_response.url)`; again `url` is the final URL -/
  getResponse : Option (Response Url)
  /-- `_exists`: whether a row with that URL is in the documents table -/
  existsInStore : Url → Bool
  /-- whether `etree.fromstring` returned a non-`None` DOM -/
  domOk : Bool
  /-- `get_lang(dom)` -/
  lang : String
  /-- `get_links(get_response.url, dom)` -/
  links : Finset Url

/-- What one `_load_page` invocation did: the link set it returned, the
URL (if any) under which it inserted a document row, and the cooldown (if
any) it recorded in `self._timeouts`. -/
structure LoadResult (Url K : Type) where
  links : Finset Url
  inserted : Option Url
  timeoutRecorded : Option (K × ℚ)

/-- `Crawler._load_page` (crawler.py lines 144-186): robots check, HEAD
fetch, header guard and exists-check on the HEAD's final URL, cooldown
record under the HEAD's final netloc, GET fetch, header guard and
exists-check on the GET's final URL, DOM and language checks, insert
under the GET's final URL, harvest links.  There is no redirect handling
of its own: the final URL is simply used from the check onwards. -/
def loadPage {Url K : Type} (key : Url → K) (env : LoadEnv Url) (_url : Url) :
    LoadResult Url K :=
  if ¬ env.canFetch then ⟨∅, none, none⟩ else
  match env.headResponse with
  | none => ⟨∅, none, none⟩
  | some h =>
    if ¬ isValidResponse h then ⟨∅, none, none⟩ else
    if env.existsInStore h.url then ⟨∅, none, none⟩ else
    match env.getResponse with
    | none => ⟨∅, none, env.robotsTimeoutVal.map (fun t => (key h.url, t))⟩
    | some g =>
      if ¬ isValidResponse g then
        ⟨∅, none, env.robotsTimeoutVal.map (fun t => (key h.url, t))⟩
      else if env.existsInStore g.url then
        ⟨∅, none, env.robotsTimeoutVal.map (fun t => (key h.url, t))⟩
      else if ¬ env.domOk then
        ⟨∅, none, env.robotsTimeoutVal.map (fun t => (key h.url, t))⟩
      else if ¬ (env.lang = "de" ∨ env.lang = "en") then
        ⟨∅, none, env.robotsTimeoutVal.map (fun t => (key h.url, t))⟩
      else
        ⟨env.links, some g.url, env.robotsTimeoutVal.map (fun t => (key h.url, t))⟩

/-- C2 counterexample: a fetch whose redirect chain ends on a different
host (original URL `(0, 0)` with netloc `0`, final URL `(1, 0)` with
netloc `1`) is *indexed* under the final URL — processing does not stop,
and nothing is re-enqueued into the frontier. -/
theorem C2_counterexample :
    (loadPage Prod.fst
        ⟨true,
          some ⟨(1, 0), 200, .head, [("content-type", "text/html")]⟩,
          none,
          some ⟨(1, 0), 200, .get, [("content-type", "text/html")]⟩,
          fun _ => false, true, "en", ∅⟩
        ((0, 0) : ℕ × ℕ)).inserted = some (1, 0) ∧
      (Prod.fst ((1, 0) : ℕ × ℕ) ≠ Prod.fst ((0, 0) : ℕ × ℕ)) := by
  exact ⟨by decide, by decide⟩

/-- C2 amended: `_load_page` never stores a document under any URL other
than the final URL of the GET's redirect chain; in particular, when the
final host differs from the original host, nothing is stored under the
original URL.  But processing continues through the redirect: the page
may be indexed under the final URL, and no redirect target is re-enqueued
(the function returns only the harvested link set, `get_links` of the
final page, or nothing). -/
theorem C2_index_under_final_url {Url K : Type} (key : Url → K)
    (env : LoadEnv Url) (url u : Url)
    (h : (loadPage key env url).inserted = some u) :
    (∃ g, env.getResponse = some g ∧ u = g.url) ∧
      (key u ≠ key url → u ≠ url) ∧
      (loadPage key env url).links = env.links := by
  unfold loadPage at h
  split at h
  next hc => exact absurd h (by simp)
  next hc =>
  split at h
  next hh => exact absurd h (by simp)
  next hr hh =>
  split at h
  next hv => exact absurd h (by simp)
  next hv =>
  split at h
  next he => exact absurd h (by simp)
  next he =>
  split at h
  next hg => exact absurd h (by simp)
  next g hg =>
  split at h
  next hvg => exact absurd h (by simp)
  next hvg =>
  split at h
  next heg => exact absurd h (by simp)
  next heg =>
  split at h
  next hd => exact absurd h (by simp)
  next hd =>
  split at h
  next hl => exact absurd h (by simp)
  next hl =>
  have hu : g.url = u := by simpa using h
  refine ⟨⟨g, hg, hu.symm⟩, fun hk he => hk (he ▸ rfl), ?_⟩
  simp only [loadPage, hh, hg]
  rw [if_neg hc, if_neg hv, if_neg he, if_neg hvg, if_neg heg, if_neg hd, if_neg hl]

/-- Witness for C2 amended at the concrete cross-host environment. -/
theorem C2_index_under_final_url_witness :
    (∃ g, (some ⟨(1, 0), 200, .get, [("content-type", "text/html")]⟩ :
        Option (Response (ℕ × ℕ))) = some g ∧ ((1, 0) : ℕ × ℕ) = g.url) ∧
      (Prod.fst ((1, 0) : ℕ × ℕ) ≠ Prod.fst ((0, 0) : ℕ × ℕ) →
        ((1, 0) : ℕ × ℕ) ≠ (0, 0)) ∧
      (loadPage Prod.fst
        ⟨true,
          some ⟨(1, 0), 200, .head, [("content-type", "text/html")]⟩,
          none,
          some ⟨(1, 0), 200, .get, [("content-type", "text/html")]⟩,
          fun _ => false, true, "en", ∅⟩
        ((0, 0) : ℕ × ℕ)).links = ∅ :=
  C2_index_under_final_url Prod.fst
    ⟨true,
      some ⟨(1, 0), 200, .head, [("content-type", "text/html")]⟩,
      none,
      some ⟨(1, 0), 200, .get, [("content-type", "text/html")]⟩,
      fun _ => false, true, "en", ∅⟩
    (0, 0) (1, 0) (by decide)

/-! ## Link harvest
(`crawler/utils.py`, `get_links`, lines 93-116)

`get_links` iterates the XPath `//a[@href]` — *every* anchor carrying an
`href`, with no condition on `rel` — resolves each `href` against the
page URL with httpx's `join` (retrying once without the query on
`ResolutionError`), drops the link when `join` raises `InvalidURL`,
drops schemes other than `http`/`https`, and collects
`normalize_url(parsed_href)` into a set.  The external `join` (including
its `ResolutionError` fallback) and `normalize_url` are abstracted as
parameters: `join` returns `none` when httpx raises `InvalidURL`, and
otherwise the scheme together with the joined URL. -/

/-- An `<a href=…>` element with its optional `rel` attribute. -/
structure Anchor where
  href : String
  rel : Option String

/-- The `for link in _LINK_XPATH(dom)` loop of `get_links`, with `links`
as the accumulated set. -/
def getLinksAux {Hurl Url : Type} [DecidableEq Url]
    (join : String → Option (String × Hurl)) (norm : Hurl → Url) :
    List Anchor → Finset Url → Finset Url
  | [], links => links
  | a :: rest, links =>
    match join a.href with
    | none => getLinksAux join norm rest links
    | some (scheme, h) =>
      if scheme ≠ "http" ∧ scheme ≠ "https" then getLinksAux join norm rest links
      else getLinksAux join norm rest (insert (norm h) links)

/-- `get_links` (utils.py lines 93-116). -/
def getLinks {Hurl Url : Type} [DecidableEq Url]
    (join : String → Option (String × Hurl)) (norm : Hurl → Url)
    (anchors : List Anchor) : Finset Url :=
  getLinksAux join norm anchors ∅

/-- Modelled from the spec: the harvest the claim describes, restricted
to anchors whose `rel` attribute is absent or not equal to `nofollow`
(spec §4.5).  No such restriction exists in `get_links` under `src/`;
this definition exists only to compare with `getLinks`. -/
def getLinksSpec {Hurl Url : Type} [DecidableEq Url]
    (join : String → Option (String × Hurl)) (norm : Hurl → Url)
    (anchors : List Anchor) : Finset Url :=
  getLinks join norm (anchors.filter (fun a => a.rel ≠ some "nofollow"))

/-- C6 counterexample: a page whose only anchor carries
`rel="nofollow"` still has that link harvested — `get_links` selects
`//a[@href]` and never reads `rel`, where the claim exempts
`rel=nofollow` anchors. -/
theorem C6_counterexample :
    getLinks (fun _ => some ("https", 0)) (fun h : ℕ => h)
        [⟨"x", some "nofollow"⟩] = {0} ∧
      getLinksSpec (fun _ => some ("https", 0)) (fun h : ℕ => h)
        [⟨"x", some "nofollow"⟩] = ∅ := by
  constructor <;> decide

/-- Membership characterization of the harvest loop. -/
theorem mem_getLinksAux {Hurl Url : Type} [DecidableEq Url]
    (join : String → Option (String × Hurl)) (norm : Hurl → Url) :
    ∀ (anchors : List Anchor) (acc : Finset Url) (u : Url),
      u ∈ getLinksAux join norm anchors acc ↔
        u ∈ acc ∨ ∃ a ∈ anchors, ∃ s h, join a.href = some (s, h) ∧
          (s = "http" ∨ s = "https") ∧ u = norm h := by
  intro anchors
  induction anchors with
  | nil => intro acc u; simp [getLinksAux]
  | cons a rest ih =>
    intro acc u
    unfold getLinksAux
    cases hj : join a.href with
    | none =>
      rw [ih]
      simp only [List.mem_cons]
      constructor
      · rintro (hacc | ⟨b, hb, s, h, hjb, hs, hu⟩)
        · exact Or.inl hacc
        · exact Or.inr ⟨b, Or.inr hb, s, h, hjb, hs, hu⟩
      · rintro (hacc | ⟨b, rfl | hb, s, h, hjb, hs, hu⟩)
        · exact Or.inl hacc
        · rw [hj] at hjb; exact absurd hjb (by simp)
        · exact Or.inr ⟨b, hb, s, h, hjb, hs, hu⟩
    | some sh =>
      obtain ⟨s, h⟩ := sh
      dsimp only
      by_cases hs : s ≠ "http" ∧ s ≠ "https"
      · rw [if_pos hs, ih]
        simp only [List.mem_cons]
        constructor
        · rintro (hacc | ⟨b, hb, s', h', hjb, hs', hu⟩)
          · exact Or.inl hacc
          · exact Or.inr ⟨b, Or.inr hb, s', h', hjb, hs', hu⟩
        · rintro (hacc | ⟨b, rfl | hb, s', h', hjb, hs', hu⟩)
          · exact Or.inl hacc
          · rw [hj] at hjb
            obtain ⟨rfl, rfl⟩ : s = s' ∧ h = h' := by
              simpa [Prod.ext_iff] using hjb
            rcases hs' with rfl | rfl
            · exact absurd rfl hs.1
            · exact absurd rfl hs.2
          · exact Or.inr ⟨b, hb, s', h', hjb, hs', hu⟩
      · rw [if_neg hs, ih]
        simp only [List.mem_cons, Finset.mem_insert]
        rw [not_and_or, not_not, not_not] at hs
        constructor
        · rintro ((rfl | hacc) | ⟨b, hb, s', h', hjb, hs', hu⟩)
          · exact Or.inr ⟨a, Or.inl rfl, s, h, hj, hs, rfl⟩
          · exact Or.inl hacc
          · exact Or.inr ⟨b, Or.inr hb, s', h', hjb, hs', hu⟩
        · rintro (hacc | ⟨b, rfl | hb, s', h', hjb, hs', hu⟩)
          · exact Or.inl (Or.inr hacc)
          · rw [hj] at hjb
            obtain ⟨rfl, rfl⟩ : s = s' ∧ h = h' := by
              simpa [Prod.ext_iff] using hjb
            exact Or.inl (Or.inl hu)
          · exact Or.inr ⟨b, hb, s', h', hjb, hs', hu⟩

/-- The harvest loop never reads `rel`. -/
theorem getLinksAux_rel_independent {Hurl Url : Type} [DecidableEq Url]
    (join : String → Option (String × Hurl)) (norm : Hurl → Url)
    (rel' : Option String) :
    ∀ (anchors : List Anchor) (acc : Finset Url),
      getLinksAux join norm (anchors.map (fun a => ⟨a.href, rel'⟩)) acc =
        getLinksAux join norm anchors acc := by
  intro anchors
  induction anchors with
  | nil => intro acc; rfl
  | cons a rest ih =>
    intro acc
    unfold getLinksAux
    simp only [List.map_cons]
    cases hj : join a.href with
    | none => exact ih acc
    | some sh =>
      obtain ⟨s, h⟩ := sh
      dsimp only
      by_cases hs : s ≠ "http" ∧ s ≠ "https"
      · rw [if_pos hs, if_pos hs]; exact ih acc
      · rw [if_neg hs, if_neg hs]; exact ih _

/-- C6 amended: the harvest returns exactly the set of canonicalized
URLs obtained from *all* `<a href=…>` anchors — the `rel` attribute is
never consulted, so `rel=nofollow` links are harvested too — each `href`
resolved via `join`, results whose scheme is not `http`/`https`
discarded, and hrefs on which `join` fails silently dropped. -/
theorem C6_link_harvest {Hurl Url : Type} [DecidableEq Url]
    (join : String → Option (String × Hurl)) (norm : Hurl → Url)
    (anchors : List Anchor) :
    (∀ u : Url, u ∈ getLinks join norm anchors ↔
      ∃ a ∈ anchors, ∃ s h, join a.href = some (s, h) ∧
        (s = "http" ∨ s = "https") ∧ u = norm h) ∧
    (∀ rel' : Option String,
      getLinks join norm (anchors.map (fun a => ⟨a.href, rel'⟩)) =
        getLinks join norm anchors) := by
  constructor
  · intro u
    rw [getLinks, mem_getLinksAux]
    simp
  · intro rel'
    exact getLinksAux_rel_independent join norm rel' anchors ∅

/-! ## URL values (`crawler/http.py`, `URL`)

The `URL` value type: `from_string` (= `from_rfc3986_uri` after
`rfc3986.URIReference.from_string`), `normalize`, `__str__`.  The code
under `src/` contributes: the four-field record, the `port == "443"`
string comparison and `int(port)` conversion, `quote(unquote(path))`,
`"/"` for an absent path, `query or None`, `normalize`'s
`path.rstrip("/") or "/"` and query-token sort, and `__str__`'s
`https://<netloc><target>` rendering.  The external collaborators
(`rfc3986`'s `from_string`/`normalize` split and syntax normalization,
`urllib.parse.quote`/`unquote`) are not part of this repository and are
modelled from the spec's description of `parse` (§4.1): ASCII
control/whitespace stripped before parsing, host ASCII-lowercased,
percent-encoding re-normalized (decode unreserved, uppercase remaining
hex), dot-segments resolved on the path (RFC 3986 §5.2.4).  Strings are
modelled at the byte level (`quote`/`unquote` round through the UTF-8
encoded form): a `Char` stands for one byte, and `parse` rejects inputs
with code points ≥ 256. -/

/-- Unreserved bytes, RFC 3986 §2.3: ALPHA / DIGIT / `-` / `.` / `_` /
`~`. -/
def isUnreservedByte (b : ℕ) : Bool :=
  decide ((65 ≤ b ∧ b ≤ 90) ∨ (97 ≤ b ∧ b ≤ 122) ∨ (48 ≤ b ∧ b ≤ 57) ∨
    b = 45 ∨ b = 46 ∨ b = 95 ∨ b = 126)

/-- Bytes `urllib.parse.quote` leaves unescaped with its default
`safe='/'`: the unreserved bytes plus `/` (47). -/
def isSafeByte (b : ℕ) : Bool := isUnreservedByte b || decide (b = 47)

/-- `isSafeByte` on a character. -/
def isSafeChar (c : Char) : Bool := isSafeByte c.toNat

/-- Value of a hexadecimal digit (both cases), `none` otherwise. -/
def hexVal (c : Char) : Option ℕ :=
  if 48 ≤ c.toNat ∧ c.toNat ≤ 57 then some (c.toNat - 48)
  else if 65 ≤ c.toNat ∧ c.toNat ≤ 70 then some (c.toNat - 55)
  else if 97 ≤ c.toNat ∧ c.toNat ≤ 102 then some (c.toNat - 87)
  else none

/-- Uppercase hexadecimal digit for a value below 16. -/
def hexDigitUpper (n : ℕ) : Char :=
  if n < 10 then Char.ofNat (48 + n) else Char.ofNat (55 + n)

/-- Modelled from the spec: the percent-encoding re-normalization of
`parse` (§4.1), performed by the external `rfc3986` `normalize()`
together with `quote(unquote(...))`: decode percent-escapes of
unreserved bytes, uppercase the hex of the remaining escapes, leave
invalid escapes alone (scanning resumes right after the `%`). -/
def pctNormalize : List Char → List Char
  | [] => []
  | c :: rest =>
    if c = '%' then
      match rest with
      | c1 :: c2 :: rest' =>
        match hexVal c1, hexVal c2 with
        | some h1, some h2 =>
          if isUnreservedByte (16 * h1 + h2) then
            Char.ofNat (16 * h1 + h2) :: pctNormalize rest'
          else
            '%' :: hexDigitUpper h1 :: hexDigitUpper h2 :: pctNormalize rest'
        | _, _ => '%' :: pctNormalize (c1 :: c2 :: rest')
      | short => '%' :: pctNormalize short
    else c :: pctNormalize rest
termination_by l => l.length
decreasing_by all_goals simp_arith

/-- Modelled from the spec: `urllib.parse.unquote` at the byte level —
decode every valid percent-escape, leave invalid ones alone. -/
def unquote : List Char → List Char
  | [] => []
  | c :: rest =>
    if c = '%' then
      match rest with
      | c1 :: c2 :: rest' =>
        match hexVal c1, hexVal c2 with
        | some h1, some h2 => Char.ofNat (16 * h1 + h2) :: unquote rest'
        | _, _ => '%' :: unquote (c1 :: c2 :: rest')
      | short => '%' :: unquote short
    else c :: unquote rest
termination_by l => l.length
decreasing_by all_goals simp_arith

/-- Modelled from the spec: `urllib.parse.quote` of one byte with the
default `safe='/'`. -/
def quoteChar (c : Char) : List Char :=
  if isSafeChar c then [c]
  else ['%', hexDigitUpper (c.toNat / 16), hexDigitUpper (c.toNat % 16)]

/-- Modelled from the spec: `urllib.parse.quote` at the byte level. -/
def quote : List Char → List Char
  | [] => []
  | c :: rest => quoteChar c ++ quote rest

/-- `quote(unquote(path))` as applied by `URL.from_rfc3986_uri`
(http.py line 57). -/
def requote (l : List Char) : List Char := quote (unquote l)

/-- Quoted normal form: what `quote` outputs — every character safe, or
part of an uppercase percent-escape of a non-safe byte. -/
inductive QNF : List Char → Prop where
  | nil : QNF []
  | safe {c : Char} {rest : List Char} :
      isSafeChar c = true → QNF rest → QNF (c :: rest)
  | esc {h1 h2 : ℕ} {rest : List Char} :
      h1 < 16 → h2 < 16 → isSafeByte (16 * h1 + h2) = false → QNF rest →
      QNF ('%' :: hexDigitUpper h1 :: hexDigitUpper h2 :: rest)

theorem char_toNat_ofNat {n : ℕ} (h : n < 256) : (Char.ofNat n).toNat = n := by
  unfold Char.ofNat Char.toNat
  rw [dif_pos]
  · rfl
  · unfold Nat.isValidChar
    exact Or.inl (Nat.lt_trans h (by norm_num))

theorem char_eq_iff_toNat {c d : Char} : c = d ↔ c.toNat = d.toNat := by
  constructor
  · intro h; rw [h]
  · intro h; exact Char.ext (UInt32.ext h)

theorem hexVal_hexDigitUpper {h : ℕ} (hh : h < 16) :
    hexVal (hexDigitUpper h) = some h := by
  interval_cases h <;> rfl

theorem hexDigitUpper_facts {h : ℕ} (hh : h < 16) :
    hexDigitUpper h ≠ '/' ∧ hexDigitUpper h ≠ '%' ∧ hexDigitUpper h ≠ '?' ∧
      hexDigitUpper h ≠ '#' ∧ 32 < (hexDigitUpper h).toNat ∧
      (hexDigitUpper h).toNat ≠ 127 ∧ (hexDigitUpper h).toNat < 256 := by
  interval_cases h <;> decide

theorem isSafeByte_range {b : ℕ} (h : isSafeByte b = true) :
    32 < b ∧ b ≠ 127 ∧ b < 256 ∧ b ≠ 37 ∧ b ≠ 63 ∧ b ≠ 35 := by
  unfold isSafeByte isUnreservedByte at h
  simp only [Bool.or_eq_true, decide_eq_true_eq] at h
  omega

theorem safeChar_ne_pct {c : Char} (h : isSafeChar c = true) : c ≠ '%' := by
  intro hc
  subst hc
  exact absurd h (by decide)

theorem pctNormalize_cons_ne {c : Char} (rest : List Char) (hc : c ≠ '%') :
    pctNormalize (c :: rest) = c :: pctNormalize rest := by
  conv_lhs => rw [pctNormalize.eq_def]
  dsimp only
  rw [if_neg hc]

theorem pctNormalize_esc_dec {c1 c2 : Char} {h1 h2 : ℕ} (rest : List Char)
    (hv1 : hexVal c1 = some h1) (hv2 : hexVal c2 = some h2)
    (hu : isUnreservedByte (16 * h1 + h2) = true) :
    pctNormalize ('%' :: c1 :: c2 :: rest) =
      Char.ofNat (16 * h1 + h2) :: pctNormalize rest := by
  conv_lhs => rw [pctNormalize.eq_def]
  dsimp only
  rw [if_pos rfl]
  simp [hv1, hv2, hu]

theorem pctNormalize_esc_keep {c1 c2 : Char} {h1 h2 : ℕ} (rest : List Char)
    (hv1 : hexVal c1 = some h1) (hv2 : hexVal c2 = some h2)
    (hu : isUnreservedByte (16 * h1 + h2) = false) :
    pctNormalize ('%' :: c1 :: c2 :: rest) =
      '%' :: hexDigitUpper h1 :: hexDigitUpper h2 :: pctNormalize rest := by
  conv_lhs => rw [pctNormalize.eq_def]
  dsimp only
  rw [if_pos rfl]
  simp [hv1, hv2, hu]

theorem unquote_cons_ne {c : Char} (rest : List Char) (hc : c ≠ '%') :
    unquote (c :: rest) = c :: unquote rest := by
  conv_lhs => rw [unquote.eq_def]
  dsimp only
  rw [if_neg hc]

theorem unquote_esc {c1 c2 : Char} {h1 h2 : ℕ} (rest : List Char)
    (hv1 : hexVal c1 = some h1) (hv2 : hexVal c2 = some h2) :
    unquote ('%' :: c1 :: c2 :: rest) =
      Char.ofNat (16 * h1 + h2) :: unquote rest := by
  conv_lhs => rw [unquote.eq_def]
  dsimp only
  rw [if_pos rfl]
  simp [hv1, hv2]

theorem quote_cons (c : Char) (rest : List Char) :
    quote (c :: rest) = quoteChar c ++ quote rest := rfl

theorem unquote_nil : unquote [] = [] := by rw [unquote.eq_def]

theorem pctNormalize_nil : pctNormalize [] = [] := by rw [pctNormalize.eq_def]

/-- `unquote` undoes `quote` on byte strings. -/
theorem unquote_quote {l : List Char} (h : ∀ c ∈ l, c.toNat < 256) :
    unquote (quote l) = l := by
  induction l with
  | nil => exact unquote_nil
  | cons c rest ih =>
    have hc : c.toNat < 256 := h c (List.mem_cons_self c rest)
    have hrest : ∀ x ∈ rest, x.toNat < 256 :=
      fun x hx => h x (List.mem_cons_of_mem c hx)
    rw [quote_cons]
    unfold quoteChar
    by_cases hs : isSafeChar c
    · rw [if_pos hs, List.singleton_append,
        unquote_cons_ne _ (safeChar_ne_pct hs), ih hrest]
    · rw [if_neg hs]
      have hd1 : c.toNat / 16 < 16 := by omega
      have hd2 : c.toNat % 16 < 16 := by omega
      have heq : 16 * (c.toNat / 16) + c.toNat % 16 = c.toNat := by omega
      rw [List.cons_append, List.cons_append, List.cons_append, List.nil_append,
        unquote_esc _ (hexVal_hexDigitUpper hd1) (hexVal_hexDigitUpper hd2),
        heq, Char.ofNat_toNat, ih hrest]

/-- `quote` outputs are in quoted normal form. -/
theorem QNF_quote {l : List Char} (h : ∀ c ∈ l, c.toNat < 256) :
    QNF (quote l) := by
  induction l with
  | nil => exact QNF.nil
  | cons c rest ih =>
    have hc : c.toNat < 256 := h c (List.mem_cons_self c rest)
    have hrest : ∀ x ∈ rest, x.toNat < 256 :=
      fun x hx => h x (List.mem_cons_of_mem c hx)
    rw [quote_cons]
    unfold quoteChar
    by_cases hs : isSafeChar c
    · rw [if_pos hs, List.singleton_append]
      exact QNF.safe hs (ih hrest)
    · rw [if_neg hs]
      have hd1 : c.toNat / 16 < 16 := by omega
      have hd2 : c.toNat % 16 < 16 := by omega
      have heq : 16 * (c.toNat / 16) + c.toNat % 16 = c.toNat := by omega
      rw [List.cons_append, List.cons_append, List.cons_append, List.nil_append]
      exact QNF.esc hd1 hd2
        (by rw [heq]; unfold isSafeChar at hs; exact Bool.not_eq_true _ ▸ Bool.eq_false_iff.mpr hs)
        (ih hrest)

/-- `quote (unquote l)` is the identity on quoted normal forms. -/
theorem quote_unquote_QNF {l : List Char} (h : QNF l) : quote (unquote l) = l := by
  induction h with
  | nil => rw [unquote_nil]; rfl
  | safe hs _ ih =>
    rw [unquote_cons_ne _ (safeChar_ne_pct hs), quote_cons]
    unfold quoteChar
    rw [if_pos hs, List.singleton_append, ih]
  | @esc h1 h2 rest hlt1 hlt2 hns _ ih =>
    rw [unquote_esc _ (hexVal_hexDigitUpper hlt1) (hexVal_hexDigitUpper hlt2),
      quote_cons]
    unfold quoteChar
    have hb : 16 * h1 + h2 < 256 := by omega
    have hsc : isSafeChar (Char.ofNat (16 * h1 + h2)) = false := by
      unfold isSafeChar
      rw [char_toNat_ofNat hb, hns]
    rw [if_neg (by simp [hsc]), char_toNat_ofNat hb]
    have e1 : (16 * h1 + h2) / 16 = h1 := by omega
    have e2 : (16 * h1 + h2) % 16 = h2 := by omega
    rw [e1, e2, ih]
    rfl

/-- `requote` is the identity on quoted normal forms. -/
theorem requote_QNF {l : List Char} (h : QNF l) : requote l = l :=
  quote_unquote_QNF h

/-- `pctNormalize` is the identity on quoted normal forms. -/
theorem pctNormalize_QNF {l : List Char} (h : QNF l) : pctNormalize l = l := by
  induction h with
  | nil => rw [pctNormalize_nil]
  | safe hs _ ih =>
    rw [pctNormalize_cons_ne _ (safeChar_ne_pct hs), ih]
  | @esc h1 h2 rest hlt1 hlt2 hns _ ih =>
    have hnu : isUnreservedByte (16 * h1 + h2) = false := by
      unfold isSafeByte at hns
      exact (Bool.or_eq_false_iff.mp hns).1
    rw [pctNormalize_esc_keep _ (hexVal_hexDigitUpper hlt1)
      (hexVal_hexDigitUpper hlt2) hnu, ih]

/-- Characters of a quoted normal form are renderable: no `?`, no `#`,
no ASCII control/whitespace, below 256. -/
theorem QNF_chars {l : List Char} (h : QNF l) :
    ∀ c ∈ l, c ≠ '?' ∧ c ≠ '#' ∧ 32 < c.toNat ∧ c.toNat ≠ 127 ∧ c.toNat < 256 := by
  induction h with
  | nil => intro c hc; exact absurd hc (List.not_mem_nil c)
  | safe hs _ ih =>
    intro c hc
    rcases List.mem_cons.mp hc with rfl | hc'
    · obtain ⟨hgt, hne, hlt, hne37, hne63, hne35⟩ := isSafeByte_range hs
      refine ⟨?_, ?_, hgt, hne, hlt⟩
      · intro he; subst he; exact hne63 rfl
      · intro he; subst he; exact hne35 rfl
    · exact ih c hc'
  | esc hlt1 hlt2 _ _ ih =>
    intro c hc
    rcases List.mem_cons.mp hc with rfl | hc'
    · exact ⟨by decide, by decide, by decide, by decide, by decide⟩
    rcases List.mem_cons.mp hc' with rfl | hc''
    · obtain ⟨_, _, h3, h4, h5, h6, h7⟩ := hexDigitUpper_facts hlt1
      exact ⟨h3, h4, h5, h6, h7⟩
    rcases List.mem_cons.mp hc'' with rfl | hc'''
    · obtain ⟨_, _, h3, h4, h5, h6, h7⟩ := hexDigitUpper_facts hlt2
      exact ⟨h3, h4, h5, h6, h7⟩
    · exact ih c hc'''

/-- Python's `path.rstrip("/")` (http.py line 88). -/
def rstripSlash : List Char → List Char
  | [] => []
  | c :: rest =>
    match rstripSlash rest with
    | [] => if c = '/' then [] else [c]
    | r => c :: r

theorem rstripSlash_cons_ne {c : Char} (l : List Char) (hc : c ≠ '/') :
    rstripSlash (c :: l) = c :: rstripSlash l := by
  conv_lhs => rw [rstripSlash.eq_def]
  dsimp only
  cases h : rstripSlash l with
  | nil => simp [hc]
  | cons x r => rfl

theorem rstripSlash_cons_slash (l : List Char) :
    rstripSlash ('/' :: l) =
      match rstripSlash l with
      | [] => []
      | r => '/' :: r := by
  conv_lhs => rw [rstripSlash.eq_def]
  dsimp only
  cases h : rstripSlash l with
  | nil => simp
  | cons x r => rfl

/-- Stripping trailing slashes preserves quoted normal form. -/
theorem QNF_rstripSlash {l : List Char} (h : QNF l) : QNF (rstripSlash l) := by
  induction h with
  | nil => exact QNF.nil
  | @safe c rest hs _ ih =>
    by_cases hc : c = '/'
    · subst hc
      rw [rstripSlash_cons_slash]
      cases hr : rstripSlash rest with
      | nil => exact QNF.nil
      | cons x r => exact QNF.safe hs (hr ▸ ih)
    · rw [rstripSlash_cons_ne _ hc]
      exact QNF.safe hs ih
  | @esc h1 h2 rest hlt1 hlt2 hns _ ih =>
    rw [rstripSlash_cons_ne _ (by decide),
      rstripSlash_cons_ne _ (hexDigitUpper_facts hlt1).1,
      rstripSlash_cons_ne _ (hexDigitUpper_facts hlt2).1]
    exact QNF.esc hlt1 hlt2 hns ih

/-- Split at the first occurrence of `sep`: the prefix before it and,
when present, the remainder after it. -/
def splitOnFirst (sep : Char) : List Char → List Char × Option (List Char)
  | [] => ([], none)
  | c :: rest =>
    if c = sep then ([], some rest)
    else
      let (a, b) := splitOnFirst sep rest
      (c :: a, b)

theorem splitOnFirst_no_sep {sep : Char} : ∀ {l : List Char}, sep ∉ l →
    splitOnFirst sep l = (l, none) := by
  intro l
  induction l with
  | nil => intro _; rfl
  | cons c rest ih =>
    intro h
    have hc : ¬ c = sep := fun hc => h (by rw [← hc]; exact List.mem_cons_self c rest)
    simp only [splitOnFirst]
    rw [if_neg hc, ih (fun hm => h (List.mem_cons_of_mem c hm))]

theorem splitOnFirst_append {sep : Char} : ∀ {a : List Char} (b : List Char), sep ∉ a →
    splitOnFirst sep (a ++ sep :: b) = (a, some b) := by
  intro a
  induction a with
  | nil =>
    intro b _
    rw [List.nil_append]
    simp [splitOnFirst]
  | cons c rest ih =>
    intro b h
    have hc : ¬ c = sep := fun hc => h (by rw [← hc]; exact List.mem_cons_self c rest)
    rw [List.cons_append]
    simp only [splitOnFirst]
    rw [if_neg hc, ih b (fun hm => h (List.mem_cons_of_mem c hm))]

theorem splitOnFirst_fst_mem {sep : Char} : ∀ {l : List Char} {c : Char},
    c ∈ (splitOnFirst sep l).1 → c ∈ l ∧ c ≠ sep := by
  intro l
  induction l with
  | nil => intro c hc; exact absurd hc (List.not_mem_nil c)
  | cons x rest ih =>
    intro c hc
    simp only [splitOnFirst] at hc
    by_cases hx : x = sep
    · rw [if_pos hx] at hc
      exact absurd hc (List.not_mem_nil c)
    · rw [if_neg hx] at hc
      simp only at hc
      rcases List.mem_cons.mp hc with rfl | hc'
      · exact ⟨List.mem_cons_self c rest, hx⟩
      · obtain ⟨hm, hne⟩ := ih hc'
        exact ⟨List.mem_cons_of_mem x hm, hne⟩

theorem splitOnFirst_snd_mem {sep : Char} : ∀ {l b : List Char},
    (splitOnFirst sep l).2 = some b → ∀ c ∈ b, c ∈ l := by
  intro l
  induction l with
  | nil => intro b hb; simp [splitOnFirst] at hb
  | cons x rest ih =>
    intro b hb c hc
    simp only [splitOnFirst] at hb
    by_cases hx : x = sep
    · rw [if_pos hx] at hb
      simp only [Option.some.injEq] at hb
      exact List.mem_cons_of_mem x (hb ▸ hc)
    · rw [if_neg hx] at hb
      exact List.mem_cons_of_mem x (ih hb c hc)

theorem splitOnFirst_snd_length {sep : Char} : ∀ {l b : List Char},
    (splitOnFirst sep l).2 = some b → b.length < l.length := by
  intro l
  induction l with
  | nil => intro b hb; simp [splitOnFirst] at hb
  | cons x rest ih =>
    intro b hb
    simp only [splitOnFirst] at hb
    by_cases hx : x = sep
    · rw [if_pos hx] at hb
      simp only [Option.some.injEq] at hb
      simp [← hb]
    · rw [if_neg hx] at hb
      exact Nat.lt_trans (ih hb) (by simp)

/-- Longest prefix of characters not satisfying `p`, and the rest. -/
def spanUntil (p : Char → Bool) : List Char → List Char × List Char
  | [] => ([], [])
  | c :: rest =>
    if p c then ([], c :: rest)
    else
      let (a, b) := spanUntil p rest
      (c :: a, b)

theorem spanUntil_append {p : Char → Bool} : ∀ {a : List Char} {c : Char} (b : List Char),
    (∀ x ∈ a, p x = false) → p c = true →
    spanUntil p (a ++ c :: b) = (a, c :: b) := by
  intro a
  induction a with
  | nil =>
    intro c b _ hc
    rw [List.nil_append]
    simp only [spanUntil]
    rw [if_pos hc]
  | cons x rest ih =>
    intro c b ha hc
    rw [List.cons_append]
    simp only [spanUntil]
    rw [if_neg (by rw [ha x (List.mem_cons_self x rest)]; exact Bool.false_ne_true),
      ih b (fun y hy => ha y (List.mem_cons_of_mem x hy)) hc]

theorem spanUntil_nil_rest {p : Char → Bool} : ∀ {a : List Char},
    (∀ x ∈ a, p x = false) → spanUntil p a = (a, []) := by
  intro a
  induction a with
  | nil => intro _; rfl
  | cons x rest ih =>
    intro ha
    simp only [spanUntil]
    rw [if_neg (by rw [ha x (List.mem_cons_self x rest)]; exact Bool.false_ne_true),
      ih (fun y hy => ha y (List.mem_cons_of_mem x hy))]

theorem spanUntil_fst_mem {p : Char → Bool} : ∀ {l : List Char} {c : Char},
    c ∈ (spanUntil p l).1 → c ∈ l ∧ p c = false := by
  intro l
  induction l with
  | nil => intro c hc; exact absurd hc (List.not_mem_nil c)
  | cons x rest ih =>
    intro c hc
    simp only [spanUntil] at hc
    by_cases hx : p x
    · rw [if_pos hx] at hc
      exact absurd hc (List.not_mem_nil c)
    · rw [if_neg hx] at hc
      simp only at hc
      rcases List.mem_cons.mp hc with rfl | hc'
      · exact ⟨List.mem_cons_self c rest, Bool.eq_false_iff.mpr hx⟩
      · obtain ⟨hm, hp⟩ := ih hc'
        exact ⟨List.mem_cons_of_mem x hm, hp⟩

theorem spanUntil_snd_mem {p : Char → Bool} : ∀ {l : List Char} {c : Char},
    c ∈ (spanUntil p l).2 → c ∈ l := by
  intro l
  induction l with
  | nil => intro c hc; exact absurd hc (List.not_mem_nil c)
  | cons x rest ih =>
    intro c hc
    simp only [spanUntil] at hc
    by_cases hx : p x
    · rw [if_pos hx] at hc
      exact hc
    · rw [if_neg hx] at hc
      exact List.mem_cons_of_mem x (ih hc)

/-- The host-and-port part of an authority: everything after the last
`@` (userinfo is dropped, spec §3). -/
def afterLastAt (l : List Char) : List Char :=
  (l.reverse.takeWhile (fun c => c ≠ '@')).reverse

theorem afterLastAt_no_at {l : List Char} (h : '@' ∉ l) : afterLastAt l = l := by
  unfold afterLastAt
  rw [List.takeWhile_eq_self_iff.mpr, List.reverse_reverse]
  intro x hx
  simp only [ne_eq, decide_eq_true_eq]
  intro hx'
  exact h (hx' ▸ List.mem_reverse.mp hx)

theorem afterLastAt_mem {l : List Char} {c : Char} (h : c ∈ afterLastAt l) :
    c ∈ l ∧ c ≠ '@' := by
  unfold afterLastAt at h
  have h' := List.mem_reverse.mp h
  constructor
  · exact List.mem_reverse.mp ((List.takeWhile_prefix _).subset h')
  · have := List.mem_takeWhile_imp h'
    simpa using this

/-- Modelled from the spec: ASCII control and whitespace characters are
stripped from the input before parsing (§4.1). -/
def keepChar (c : Char) : Bool := decide (32 < c.toNat ∧ c.toNat ≠ 127)

/-- Strip ASCII control/whitespace. -/
def stripCW (l : List Char) : List Char := l.filter keepChar

theorem stripCW_eq_self {l : List Char} (h : ∀ c ∈ l, keepChar c = true) :
    stripCW l = l := List.filter_eq_self.mpr h

theorem stripCW_mem {l : List Char} {c : Char} (h : c ∈ stripCW l) :
    c ∈ l ∧ keepChar c = true := by
  unfold stripCW at h
  exact ⟨List.mem_of_mem_filter h, List.of_mem_filter h⟩

/-- Lexicographic comparison by code point — Python's `<=` on `str`,
as used by `sorted`. -/
def lexLe : List Char → List Char → Bool
  | [], _ => true
  | _ :: _, [] => false
  | a :: as, b :: bs => if a < b then true else if b < a then false else lexLe as bs

/-- Python's `query.split("&")`. -/
def splitAmp (l : List Char) : List (List Char) :=
  match h : splitOnFirst '&' l with
  | (a, none) => [a]
  | (a, some rest) => a :: splitAmp rest
termination_by l.length
decreasing_by exact splitOnFirst_snd_length (by rw [h])

/-- Python's `"&".join(...)`. -/
def joinAmp : List (List Char) → List Char
  | [] => []
  | [t] => t
  | t :: ts => t ++ '&' :: joinAmp ts

/-- Decimal digit characters. -/
def isDigitChar (c : Char) : Bool := decide (48 ≤ c.toNat ∧ c.toNat ≤ 57)

/-- `str(port)`: decimal rendering of a number. -/
def natDigits (n : ℕ) : List Char :=
  if n = 0 then ['0']
  else (Nat.digits 10 n).reverse.map (fun d => Char.ofNat (48 + d))

/-- `int(port_string)`: decimal digits to a number (most significant
first). -/
def digitVal (c : Char) : ℕ := c.toNat - 48

/-- Value of a most-significant-first digit string. -/
def digitsToNat (l : List Char) : ℕ := l.foldl (fun n c => 10 * n + digitVal c) 0

theorem foldl_digit_chars (ds : List ℕ) (hd : ∀ d ∈ ds, d < 10) :
    ∀ acc : ℕ,
      List.foldl (fun n c => 10 * n + digitVal c) acc
        (ds.reverse.map (fun d => Char.ofNat (48 + d))) =
      acc * 10 ^ ds.length + Nat.ofDigits 10 ds := by
  induction ds with
  | nil => intro acc; simp [Nat.ofDigits_nil]
  | cons d ds ih =>
    intro acc
    have hdd : d < 10 := hd d (List.mem_cons_self d ds)
    have hds : ∀ x ∈ ds, x < 10 := fun x hx => hd x (List.mem_cons_of_mem d hx)
    rw [List.reverse_cons, List.map_append, List.foldl_append, ih hds acc]
    simp only [List.map_cons, List.map_nil, List.foldl_cons, List.foldl_nil]
    have hdv : digitVal (Char.ofNat (48 + d)) = d := by
      unfold digitVal
      rw [char_toNat_ofNat (by omega)]
      omega
    rw [hdv, Nat.ofDigits_cons, List.length_cons, pow_succ]
    ring

theorem digitsToNat_natDigits (n : ℕ) : digitsToNat (natDigits n) = n := by
  unfold natDigits
  by_cases h : n = 0
  · subst h; rw [if_pos rfl]; rfl
  · rw [if_neg h]
    unfold digitsToNat
    rw [foldl_digit_chars _ (fun d hd => Nat.digits_lt_base (by norm_num) hd) 0,
      Nat.ofDigits_digits]
    ring

theorem natDigits_ne_443 {n : ℕ} (h : n ≠ 443) : natDigits n ≠ '4' :: '4' :: '3' :: [] := by
  intro he
  apply h
  have := digitsToNat_natDigits n
  rw [he] at this
  simpa [digitsToNat, digitVal] using this.symm

theorem natDigits_chars {n : ℕ} {c : Char} (h : c ∈ natDigits n) :
    48 ≤ c.toNat ∧ c.toNat ≤ 57 := by
  unfold natDigits at h
  by_cases hn : n = 0
  · rw [if_pos hn] at h
    rcases List.mem_cons.mp h with rfl | h'
    · exact ⟨by decide, by decide⟩
    · exact absurd h' (List.not_mem_nil c)
  · rw [if_neg hn] at h
    obtain ⟨d, hd, rfl⟩ := List.mem_map.mp h
    have hdd : d < 10 := Nat.digits_lt_base (by norm_num) (List.mem_reverse.mp hd)
    rw [char_toNat_ofNat (by omega)]
    omega

theorem natDigits_ne_nil (n : ℕ) : natDigits n ≠ [] := by
  unfold natDigits
  by_cases hn : n = 0
  · rw [if_pos hn]; exact List.cons_ne_nil _ _
  · rw [if_neg hn]
    simp only [ne_eq, List.map_eq_nil_iff, List.reverse_eq_nil_iff]
    exact Nat.digits_ne_nil_iff_ne_zero.mpr hn

theorem spanUntil_append_eq {p : Char → Bool} : ∀ l : List Char,
    (spanUntil p l).1 ++ (spanUntil p l).2 = l := by
  intro l
  induction l with
  | nil => rfl
  | cons x rest ih =>
    simp only [spanUntil]
    by_cases hx : p x
    · rw [if_pos hx]
      rfl
    · rw [if_neg hx]
      simp only [List.cons_append]
      rw [ih]

theorem spanUntil_snd_head {p : Char → Bool} : ∀ {l : List Char},
    (spanUntil p l).2 = [] ∨ ∃ c t, (spanUntil p l).2 = c :: t ∧ p c = true := by
  intro l
  induction l with
  | nil => exact Or.inl rfl
  | cons x rest ih =>
    simp only [spanUntil]
    by_cases hx : p x
    · rw [if_pos hx]
      exact Or.inr ⟨x, rest, rfl, hx⟩
    · rw [if_neg hx]
      exact ih

/-- The first path segment (RFC 3986 §5.2.4 step E): the leading `/`, if
present, plus everything up to but not including the next `/`. -/
def takeSeg : List Char → List Char × List Char
  | [] => ([], [])
  | c :: rest =>
    if c = '/' then
      ('/' :: (spanUntil (fun x => decide (x = '/')) rest).1,
        (spanUntil (fun x => decide (x = '/')) rest).2)
    else spanUntil (fun x => decide (x = '/')) (c :: rest)

theorem takeSeg_append : ∀ l : List Char, (takeSeg l).1 ++ (takeSeg l).2 = l := by
  intro l
  cases l with
  | nil => rfl
  | cons c rest =>
    simp only [takeSeg]
    by_cases hc : c = '/'
    · rw [if_pos hc, List.cons_append, spanUntil_append_eq, hc]
    · rw [if_neg hc, spanUntil_append_eq]

theorem takeSeg_fst_ne_nil : ∀ {l : List Char}, l ≠ [] → (takeSeg l).1 ≠ [] := by
  intro l hl
  cases l with
  | nil => exact absurd rfl hl
  | cons c rest =>
    simp only [takeSeg]
    by_cases hc : c = '/'
    · rw [if_pos hc]
      exact List.cons_ne_nil _ _
    · rw [if_neg hc]
      simp only [spanUntil]
      rw [if_neg (by simp [hc])]
      exact List.cons_ne_nil _ _

theorem takeSeg_rest_length {l : List Char} (hl : l ≠ []) :
    (takeSeg l).2.length < l.length := by
  have happ := takeSeg_append l
  have hfst := takeSeg_fst_ne_nil hl
  have := congrArg List.length happ
  rw [List.length_append] at this
  have hpos : 0 < (takeSeg l).1.length := List.length_pos.mpr hfst
  omega

theorem takeSeg_snd_slashLed {l : List Char} :
    (takeSeg l).2 = [] ∨ ∃ t, (takeSeg l).2 = '/' :: t := by
  cases l with
  | nil => exact Or.inl rfl
  | cons c rest =>
    simp only [takeSeg]
    by_cases hc : c = '/'
    · rw [if_pos hc]
      rcases spanUntil_snd_head (p := fun x => decide (x = '/')) (l := rest) with h | ⟨x, t, hxt, hx⟩
      · exact Or.inl h
      · simp only [decide_eq_true_eq] at hx
        exact Or.inr ⟨t, by rw [hxt, hx]⟩
    · rw [if_neg hc]
      rcases spanUntil_snd_head (p := fun x => decide (x = '/')) (l := c :: rest) with h | ⟨x, t, hxt, hx⟩
      · exact Or.inl h
      · simp only [decide_eq_true_eq] at hx
        exact Or.inr ⟨t, by rw [hxt, hx]⟩

theorem takeSeg_fst_slashLed {t : List Char} :
    ∃ a, (takeSeg ('/' :: t)).1 = '/' :: a := by
  refine ⟨(spanUntil (fun x => decide (x = '/')) t).1, ?_⟩
  simp [takeSeg]

theorem takeSeg_fst_mem {l : List Char} {c : Char} (h : c ∈ (takeSeg l).1) : c ∈ l := by
  have := takeSeg_append l
  rw [← this]
  exact List.mem_append_left _ h

theorem takeSeg_snd_mem {l : List Char} {c : Char} (h : c ∈ (takeSeg l).2) : c ∈ l := by
  have := takeSeg_append l
  rw [← this]
  exact List.mem_append_right _ h

/-- RFC 3986 §5.2.4 step C: remove the output buffer's last segment and
the `/` before it. -/
def dropLastSegment (out : List Char) : List Char :=
  ((out.reverse.dropWhile (fun c => decide (c ≠ '/'))).drop 1).reverse

theorem dropLastSegment_front (out : List Char) : dropLastSegment out <+: out := by
  unfold dropLastSegment
  have h1 : (out.reverse.dropWhile (fun c => decide (c ≠ '/'))).drop 1 <:+ out.reverse :=
    List.IsSuffix.trans (List.drop_suffix 1 _) (List.dropWhile_suffix _)
  have h2 : ((out.reverse.dropWhile (fun c => decide (c ≠ '/'))).drop 1).reverse.reverse <:+
      out.reverse := by
    rw [List.reverse_reverse]
    exact h1
  exact List.reverse_suffix.mp h2

theorem dropLastSegment_mem {out : List Char} {c : Char}
    (h : c ∈ dropLastSegment out) : c ∈ out :=
  (dropLastSegment_front out).subset h

/-- Modelled from the spec: `remove_dot_segments` of RFC 3986 §5.2.4,
the dot-segment resolution `parse` performs on the path (§4.1).  `out`
is the output buffer, `inp` the input buffer. -/
def rdsLoop (out inp : List Char) : List Char :=
  if inp = [] then out
  else if inp.take 3 = ['.', '.', '/'] then rdsLoop out (inp.drop 3)
  else if inp.take 2 = ['.', '/'] then rdsLoop out (inp.drop 2)
  else if inp.take 3 = ['/', '.', '/'] then rdsLoop out ('/' :: inp.drop 3)
  else if inp = ['/', '.'] then rdsLoop out ['/']
  else if inp.take 4 = ['/', '.', '.', '/'] then
    rdsLoop (dropLastSegment out) ('/' :: inp.drop 4)
  else if inp = ['/', '.', '.'] then rdsLoop (dropLastSegment out) ['/']
  else if inp = ['.'] ∨ inp = ['.', '.'] then out
  else rdsLoop (out ++ (takeSeg inp).1) (takeSeg inp).2
termination_by inp.length
decreasing_by
  · rename_i h1 h2
    have : inp.length ≥ 3 := by
      have := congrArg List.length h2
      simp [List.length_take] at this
      omega
    simp [List.length_drop]
    omega
  · rename_i h1 h2 h3
    have : inp.length ≥ 2 := by
      have := congrArg List.length h3
      simp [List.length_take] at this
      omega
    simp [List.length_drop]
    omega
  · rename_i h1 h2 h3 h4
    have : inp.length ≥ 3 := by
      have := congrArg List.length h4
      simp [List.length_take] at this
      omega
    simp [List.length_drop]
    omega
  · rename_i h5
    rw [h5]
    simp
  · rename_i h6
    have : inp.length ≥ 4 := by
      have := congrArg List.length h6
      simp [List.length_take] at this
      omega
    simp [List.length_drop]
    omega
  · rename_i h7
    rw [h7]
    simp
  · rename_i h1 h2 h3 h4 h5 h6 h7 h8
    exact takeSeg_rest_length h1

/-- `remove_dot_segments` on a path. -/
def rds (path : List Char) : List Char := rdsLoop [] path

/-- No branch of the `remove_dot_segments` loop other than a plain
segment move ever fires on this path: it contains no dot-segments. -/
def noDots (inp : List Char) : Bool :=
  if inp = [] then true
  else if inp.take 3 = ['.', '.', '/'] then false
  else if inp.take 2 = ['.', '/'] then false
  else if inp.take 3 = ['/', '.', '/'] then false
  else if inp = ['/', '.'] then false
  else if inp.take 4 = ['/', '.', '.', '/'] then false
  else if inp = ['/', '.', '.'] then false
  else if inp = ['.'] ∨ inp = ['.', '.'] then false
  else noDots (takeSeg inp).2
termination_by inp.length
decreasing_by
  · rename_i h1 h2 h3 h4 h5 h6 h7 h8
    exact takeSeg_rest_length h1

/-- `remove_dot_segments` is the identity on dot-free paths. -/
theorem rdsLoop_noDots : ∀ out inp : List Char, noDots inp = true →
    rdsLoop out inp = out ++ inp := by
  intro out inp
  induction out, inp using rdsLoop.induct with
  | case1 out =>
    intro _
    rw [rdsLoop]
    simp
  | case2 out inp h1 h2 ih =>
    intro h
    unfold noDots at h
    rw [if_neg h1, if_pos h2] at h
    exact absurd h (by simp)
  | case3 out inp h1 h2 h3 ih =>
    intro h
    unfold noDots at h
    rw [if_neg h1, if_neg h2, if_pos h3] at h
    exact absurd h (by simp)
  | case4 out inp h1 h2 h3 h4 ih =>
    intro h
    unfold noDots at h
    rw [if_neg h1, if_neg h2, if_neg h3, if_pos h4] at h
    exact absurd h (by simp)
  | case5 out h1 h2 h3 h4 ih =>
    intro h
    unfold noDots at h
    simp at h
  | case6 out inp h1 h2 h3 h4 h5 h6 ih =>
    intro h
    unfold noDots at h
    rw [if_neg h1, if_neg h2, if_neg h3, if_neg h4, if_neg h5, if_pos h6] at h
    exact absurd h (by simp)
  | case7 out h1 h2 h3 h4 h5 h6 ih =>
    intro h
    unfold noDots at h
    simp at h
  | case8 out inp h1 h2 h3 h4 h5 h6 h7 h8 =>
    intro h
    unfold noDots at h
    rw [if_neg h1, if_neg h2, if_neg h3, if_neg h4, if_neg h5, if_neg h6, if_neg h7,
      if_pos h8] at h
    exact absurd h (by simp)
  | case9 out inp h1 h2 h3 h4 h5 h6 h7 h8 ih =>
    intro h
    unfold noDots at h
    rw [if_neg h1, if_neg h2, if_neg h3, if_neg h4, if_neg h5, if_neg h6, if_neg h7,
      if_neg h8] at h
    rw [rdsLoop, if_neg h1, if_neg h2, if_neg h3, if_neg h4, if_neg h5, if_neg h6,
      if_neg h7, if_neg h8, ih h, List.append_assoc, takeSeg_append]

/-- Slash-led or empty. -/
def SlashLed (l : List Char) : Prop := l = [] ∨ ∃ t, l = '/' :: t

theorem slashLed_dropLastSegment {out : List Char} (h : SlashLed out) :
    SlashLed (dropLastSegment out) := by
  rcases h with rfl | ⟨t, rfl⟩
  · left
    have := dropLastSegment_front ([] : List Char)
    exact List.prefix_nil.mp this
  · rcases dropLastSegment_front ('/' :: t) with ⟨s, hs⟩
    cases hd : dropLastSegment ('/' :: t) with
    | nil => exact Or.inl rfl
    | cons x r =>
      rw [hd] at hs
      right
      refine ⟨r, ?_⟩
      rw [List.cons_append] at hs
      injection hs with h1 _
      rw [h1]

/-- On slash-led buffers the loop returns a non-empty slash-led path. -/
theorem rdsLoop_slashLed : ∀ out inp : List Char, SlashLed out →
    SlashLed inp → (out = [] → inp ≠ []) →
    ∃ t, rdsLoop out inp = '/' :: t := by
  intro out inp
  induction out, inp using rdsLoop.induct with
  | case1 out =>
    intro hout _ hne
    rw [rdsLoop]
    simp only [if_pos rfl]
    rcases hout with rfl | ⟨t, rfl⟩
    · exact absurd rfl (hne rfl)
    · exact ⟨t, rfl⟩
  | case2 out inp h1 h2 ih =>
    intro _ hinp _
    exfalso
    rcases hinp with rfl | ⟨t, rfl⟩
    · exact h1 rfl
    · rw [List.take_succ_cons] at h2
      injection h2 with hx _
      exact absurd hx (by decide)
  | case3 out inp h1 h2 h3 ih =>
    intro _ hinp _
    exfalso
    rcases hinp with rfl | ⟨t, rfl⟩
    · exact h1 rfl
    · rw [List.take_succ_cons] at h3
      injection h3 with hx _
      exact absurd hx (by decide)
  | case4 out inp h1 h2 h3 h4 ih =>
    intro hout hinp hne
    rw [rdsLoop, if_neg h1, if_neg h2, if_neg h3, if_pos h4]
    exact ih hout (Or.inr ⟨_, rfl⟩) (fun _ => List.cons_ne_nil _ _)
  | case5 out h1 h2 h3 h4 ih =>
    intro hout hinp hne
    rw [rdsLoop]
    simp only [if_neg h1, if_neg h2, if_neg h3, if_neg h4, if_pos rfl,
      reduceCtorEq, reduceIte]
    exact ih hout (Or.inr ⟨[], rfl⟩) (fun _ => List.cons_ne_nil _ _)
  | case6 out inp h1 h2 h3 h4 h5 h6 ih =>
    intro hout hinp hne
    rw [rdsLoop, if_neg h1, if_neg h2, if_neg h3, if_neg h4, if_neg h5, if_pos h6]
    exact ih (slashLed_dropLastSegment hout) (Or.inr ⟨_, rfl⟩)
      (fun _ => List.cons_ne_nil _ _)
  | case7 out h1 h2 h3 h4 h5 h6 ih =>
    intro hout hinp hne
    rw [rdsLoop]
    simp only [if_neg h1, if_neg h2, if_neg h3, if_neg h4, if_neg h5, if_neg h6,
      if_pos rfl, reduceCtorEq, reduceIte]
    exact ih (slashLed_dropLastSegment hout) (Or.inr ⟨[], rfl⟩)
      (fun _ => List.cons_ne_nil _ _)
  | case8 out inp h1 h2 h3 h4 h5 h6 h7 h8 =>
    intro _ hinp _
    exfalso
    rcases hinp with rfl | ⟨t, rfl⟩
    · exact h1 rfl
    · rcases h8 with h8 | h8 <;> simp at h8
  | case9 out inp h1 h2 h3 h4 h5 h6 h7 h8 ih =>
    intro hout hinp hne
    rw [rdsLoop, if_neg h1, if_neg h2, if_neg h3, if_neg h4, if_neg h5, if_neg h6,
      if_neg h7, if_neg h8]
    rcases hinp with rfl | ⟨t, rfl⟩
    · exact absurd rfl h1
    · obtain ⟨a, ha⟩ := takeSeg_fst_slashLed (t := t)
      refine ih ?_ takeSeg_snd_slashLed ?_
      · rcases hout with rfl | ⟨s, rfl⟩
        · rw [List.nil_append, ha]
          exact Or.inr ⟨a, rfl⟩
        · exact Or.inr ⟨s ++ (takeSeg ('/' :: t)).1, rfl⟩
      · intro hcontra
        rcases hout with rfl | ⟨s, rfl⟩
        · rw [List.nil_append, ha] at hcontra
          exact absurd hcontra (List.cons_ne_nil _ _)
        · exact absurd hcontra (List.cons_ne_nil _ _)

/-- Characters of the loop result come from the buffers or are `/`. -/
theorem rdsLoop_mem {c : Char} : ∀ out inp : List Char,
    c ∈ rdsLoop out inp → c ∈ out ∨ c ∈ inp ∨ c = '/' := by
  intro out inp
  induction out, inp using rdsLoop.induct with
  | case1 out =>
    intro h
    rw [rdsLoop] at h
    simp only [if_pos rfl] at h
    exact Or.inl h
  | case2 out inp h1 h2 ih =>
    intro h
    rw [rdsLoop, if_neg h1, if_pos h2] at h
    rcases ih h with h' | h' | h'
    · exact Or.inl h'
    · exact Or.inr (Or.inl (List.mem_of_mem_drop h'))
    · exact Or.inr (Or.inr h')
  | case3 out inp h1 h2 h3 ih =>
    intro h
    rw [rdsLoop, if_neg h1, if_neg h2, if_pos h3] at h
    rcases ih h with h' | h' | h'
    · exact Or.inl h'
    · exact Or.inr (Or.inl (List.mem_of_mem_drop h'))
    · exact Or.inr (Or.inr h')
  | case4 out inp h1 h2 h3 h4 ih =>
    intro h
    rw [rdsLoop, if_neg h1, if_neg h2, if_neg h3, if_pos h4] at h
    rcases ih h with h' | h' | h'
    · exact Or.inl h'
    · rcases List.mem_cons.mp h' with rfl | h''
      · exact Or.inr (Or.inr rfl)
      · exact Or.inr (Or.inl (List.mem_of_mem_drop h''))
    · exact Or.inr (Or.inr h')
  | case5 out h1 h2 h3 h4 ih =>
    intro h
    rw [rdsLoop] at h
    simp only [if_neg h1, if_neg h2, if_neg h3, if_neg h4, if_pos rfl,
      reduceCtorEq, reduceIte] at h
    rcases ih h with h' | h' | h'
    · exact Or.inl h'
    · rcases List.mem_cons.mp h' with rfl | h''
      · exact Or.inr (Or.inr rfl)
      · exact absurd h'' (List.not_mem_nil c)
    · exact Or.inr (Or.inr h')
  | case6 out inp h1 h2 h3 h4 h5 h6 ih =>
    intro h
    rw [rdsLoop, if_neg h1, if_neg h2, if_neg h3, if_neg h4, if_neg h5, if_pos h6] at h
    rcases ih h with h' | h' | h'
    · exact Or.inl (dropLastSegment_mem h')
    · rcases List.mem_cons.mp h' with rfl | h''
      · exact Or.inr (Or.inr rfl)
      · exact Or.inr (Or.inl (List.mem_of_mem_drop h''))
    · exact Or.inr (Or.inr h')
  | case7 out h1 h2 h3 h4 h5 h6 ih =>
    intro h
    rw [rdsLoop] at h
    simp only [if_neg h1, if_neg h2, if_neg h3, if_neg h4, if_neg h5, if_neg h6,
      if_pos rfl, reduceCtorEq, reduceIte] at h
    rcases ih h with h' | h' | h'
    · exact Or.inl (dropLastSegment_mem h')
    · rcases List.mem_cons.mp h' with rfl | h''
      · exact Or.inr (Or.inr rfl)
      · exact absurd h'' (List.not_mem_nil c)
    · exact Or.inr (Or.inr h')
  | case8 out inp h1 h2 h3 h4 h5 h6 h7 h8 =>
    intro h
    rw [rdsLoop, if_neg h1, if_neg h2, if_neg h3, if_neg h4, if_neg h5, if_neg h6,
      if_neg h7, if_pos h8] at h
    exact Or.inl h
  | case9 out inp h1 h2 h3 h4 h5 h6 h7 h8 ih =>
    intro h
    rw [rdsLoop, if_neg h1, if_neg h2, if_neg h3, if_neg h4, if_neg h5, if_neg h6,
      if_neg h7, if_neg h8] at h
    rcases ih h with h' | h' | h'
    · rcases List.mem_append.mp h' with h'' | h''
      · exact Or.inl h''
      · exact Or.inr (Or.inl (takeSeg_fst_mem h''))
    · exact Or.inr (Or.inl (takeSeg_snd_mem h'))
    · exact Or.inr (Or.inr h')

/-- `URL` (http.py lines 31-37): host, optional port, path, optional
query.  Strings are byte lists. -/
structure URL where
  host : List Char
  port : Option ℕ
  path : List Char
  query : Option (List Char)
deriving DecidableEq

/-- Characters ending the authority component: `/`, `?`, `#`. -/
def isAuthEnd (c : Char) : Bool := decide (c = '/' ∨ c = '?' ∨ c = '#')

/-- The port logic of `from_rfc3986_uri` (http.py lines 48-49 and 56):
the port, when present, must be a non-empty digit string; the *string*
`"443"` is dropped; any other digit string goes through `int`, so
`"0443"` yields port number 443. -/
def parsePort : Option (List Char) → Option (Option ℕ)
  | none => some none
  | some pr =>
    if pr = [] then none
    else if ¬ pr.all isDigitChar then none
    else if pr = '4' :: '4' :: '3' :: [] then some none
    else some (some (digitsToNat pr))

/-- `URL.from_string` (http.py lines 74-77), i.e. `from_rfc3986_uri`
after `rfc3986.URIReference.from_string` and `.normalize()`.  The
`src/` code contributes the scheme/host assertions, the `"443"` string
comparison with `int(port)`, `quote(unquote(path))`, `"/"` for an
absent path and `query or None`; the split into
`scheme://[userinfo@]host[:port]/path?query#fragment`, the lowercasing
of the host, the percent-renormalization and the dot-segment removal
are the external `rfc3986` behaviour, modelled from the spec (§4.1),
with userinfo and fragment dropped (§3). -/
def URL.fromString (l0 : List Char) : Option URL :=
  let l := stripCW l0
  if ¬ l.all (fun c => decide (c.toNat < 256)) then none
  else
    match (splitOnFirst ':' l).2 with
    | none => none
    | some rest =>
      if ¬ ((splitOnFirst ':' l).1.map Char.toLower = "http".data ∨
          (splitOnFirst ':' l).1.map Char.toLower = "https".data) then none
      else if ¬ (rest.take 2 = ['/', '/']) then none
      else
        let auth := (spanUntil isAuthEnd (rest.drop 2)).1
        let rest2 := (spanUntil isAuthEnd (rest.drop 2)).2
        let pq := (splitOnFirst '#' rest2).1
        let rawPath := (splitOnFirst '?' pq).1
        let rawQuery := (splitOnFirst '?' pq).2
        let hostRaw := (splitOnFirst ':' (afterLastAt auth)).1
        let portRaw := (splitOnFirst ':' (afterLastAt auth)).2
        if hostRaw = [] then none
        else
          match parsePort portRaw with
          | none => none
          | some port =>
            some ⟨hostRaw.map Char.toLower, port,
              if rawPath = [] then ['/'] else requote (rds (pctNormalize rawPath)),
              match rawQuery with
              | none => none
              | some q =>
                if pctNormalize q = [] then none else some (pctNormalize q)⟩

/-- `URL.normalize` (http.py lines 79-90): strip trailing slashes,
keeping at least `/`, and sort the `&`-separated query tokens. -/
def URL.normalize (u : URL) : URL :=
  ⟨u.host, u.port,
    match rstripSlash u.path with
    | [] => ['/']
    | p => p,
    u.query.map (fun q => joinAmp (List.mergeSort (splitAmp q) lexLe))⟩

/-- `Netloc.__str__`'s `:port` part (http.py lines 24-28). -/
def portPart : Option ℕ → List Char
  | none => []
  | some p => ':' :: natDigits p

/-- `URL.target`'s `?query` part (http.py lines 97-102). -/
def queryPart : Option (List Char) → List Char
  | none => []
  | some q => '?' :: q

/-- `URL.__str__` (http.py lines 153-155):
`https://<host>[:port]<path>[?<query>]`. -/
def URL.render (u : URL) : List Char :=
  "https://".data ++ u.host ++ portPart u.port ++ u.path ++ queryPart u.query

theorem splitAmp_no_amp {q : List Char} (h : '&' ∉ q) : splitAmp q = [q] := by
  conv_lhs => rw [splitAmp.eq_def]
  split
  · rename_i a heq
    rw [splitOnFirst_no_sep h] at heq
    injection heq with h1 h2
    rw [h1]
  · rename_i a rest heq
    rw [splitOnFirst_no_sep h] at heq
    injection heq with h1 h2
    exact absurd h2 (by simp)

set_option maxRecDepth 16384 in
/-- C9 counterexample: three URLs accepted by `parse` whose canonical
form does not survive `parse ∘ render`.  (i) `https://a:0443/x`:
the code compares the port *string* against `"443"` (http.py line 56), so
`0443` is kept as port number 443, rendered `:443`, and re-parsing drops
it.  (ii) `https://a/%2e%2f%2e%2e/x`: percent-normalization
decodes `%2e` to `.` (unreserved) while `%2F` stays encoded, so
dot-segment removal sees the opaque segment `.%2F..`; the final
`quote(unquote(...))` then decodes `%2F`, leaving the canonical path
`/./../x`, whose dot-segments re-parsing removes.  (iii)
`https://a/p?%7%34`: percent-normalizing the query turns
`%7%34` into `%74`, which is *itself* decodable (`t`), so re-parsing
changes the query. -/
theorem C9_counterexample :
    ((URL.fromString "https://a:0443/x".data).map URL.normalize =
        some ⟨"a".data, some 443, "/x".data, none⟩ ∧
      URL.fromString
          (URL.render ⟨"a".data, some 443, "/x".data, none⟩) ≠
        some ⟨"a".data, some 443, "/x".data, none⟩) ∧
    ((URL.fromString "https://a/%2e%2f%2e%2e/x".data).map URL.normalize =
        some ⟨"a".data, none, "/./../x".data, none⟩ ∧
      URL.fromString
          (URL.render ⟨"a".data, none, "/./../x".data, none⟩) ≠
        some ⟨"a".data, none, "/./../x".data, none⟩) ∧
    ((URL.fromString "https://a/p?%7%34".data).map URL.normalize =
        some ⟨"a".data, none, "/p".data, some "%74".data⟩ ∧
      URL.fromString
          (URL.render ⟨"a".data, none, "/p".data, some "%74".data⟩) ≠
        some ⟨"a".data, none, "/p".data, some "%74".data⟩) := by
  have epathx : requote (rds (pctNormalize "/x".data)) = "/x".data := by
    have e1 : pctNormalize "/x".data = "/x".data := by simp [pctNormalize, hexVal]
    have e2 : rds "/x".data = "/x".data := by
      simp [rds, rdsLoop, takeSeg, dropLastSegment, spanUntil]
    have e3 : unquote "/x".data = "/x".data := by simp [unquote, hexVal]
    rw [e1, e2, requote, e3]
    simp [quote, quoteChar, isSafeChar, isSafeByte, isUnreservedByte]
  have epathp : requote (rds (pctNormalize "/p".data)) = "/p".data := by
    have e1 : pctNormalize "/p".data = "/p".data := by simp [pctNormalize, hexVal]
    have e2 : rds "/p".data = "/p".data := by
      simp [rds, rdsLoop, takeSeg, dropLastSegment, spanUntil]
    have e3 : unquote "/p".data = "/p".data := by simp [unquote, hexVal]
    rw [e1, e2, requote, e3]
    simp [quote, quoteChar, isSafeChar, isSafeByte, isUnreservedByte]
  refine ⟨⟨?_, ?_⟩, ⟨?_, ?_⟩, ⟨?_, ?_⟩⟩
  · have hp : URL.fromString "https://a:0443/x".data =
        some ⟨"a".data, some 443, "/x".data, none⟩ := by
      simp [URL.fromString, stripCW, keepChar, splitOnFirst, spanUntil, isAuthEnd,
        afterLastAt, parsePort, isDigitChar, digitsToNat, digitVal, Char.toLower,
        epathx]
    rw [hp]
    have hn : URL.normalize ⟨"a".data, some 443, "/x".data, none⟩ =
        ⟨"a".data, some 443, "/x".data, none⟩ := by
      unfold URL.normalize
      simp [rstripSlash]
    simp [hn]
  · have hr : URL.render ⟨"a".data, some 443, "/x".data, none⟩ =
        "https://a:443/x".data := by
      simp [URL.render, portPart, queryPart, natDigits]
    have hp : URL.fromString "https://a:443/x".data =
        some ⟨"a".data, none, "/x".data, none⟩ := by
      simp [URL.fromString, stripCW, keepChar, splitOnFirst, spanUntil, isAuthEnd,
        afterLastAt, parsePort, isDigitChar, digitsToNat, digitVal, Char.toLower,
        epathx]
    rw [hr, hp]
    simp
  · have hpath2 : requote (rds (pctNormalize "/%2e%2f%2e%2e/x".data)) =
        "/./../x".data := by
      have e1 : pctNormalize "/%2e%2f%2e%2e/x".data = "/.%2F../x".data := by
        simp [pctNormalize, hexVal, isUnreservedByte, hexDigitUpper]
      have e2 : rds "/.%2F../x".data = "/.%2F../x".data := by
        simp [rds, rdsLoop, takeSeg, dropLastSegment, spanUntil]
      have e3 : unquote "/.%2F../x".data = "/./../x".data := by
        simp [unquote, hexVal]
      rw [e1, e2, requote, e3]
      simp [quote, quoteChar, isSafeChar, isSafeByte, isUnreservedByte]
    have hp : URL.fromString "https://a/%2e%2f%2e%2e/x".data =
        some ⟨"a".data, none, "/./../x".data, none⟩ := by
      simp [URL.fromString, stripCW, keepChar, splitOnFirst, spanUntil, isAuthEnd,
        afterLastAt, parsePort, isDigitChar, digitsToNat, digitVal, Char.toLower,
        hpath2]
    rw [hp]
    have hn : URL.normalize ⟨"a".data, none, "/./../x".data, none⟩ =
        ⟨"a".data, none, "/./../x".data, none⟩ := by
      unfold URL.normalize
      simp [rstripSlash]
    simp [hn]
  · have hpath3 : requote (rds (pctNormalize "/./../x".data)) = "/x".data := by
      have e1 : pctNormalize "/./../x".data = "/./../x".data := by
        simp [pctNormalize, hexVal]
      have e2 : rds "/./../x".data = "/x".data := by
        simp [rds, rdsLoop, takeSeg, dropLastSegment, spanUntil]
      have e3 : unquote "/x".data = "/x".data := by simp [unquote, hexVal]
      rw [e1, e2, requote, e3]
      simp [quote, quoteChar, isSafeChar, isSafeByte, isUnreservedByte]
    have hr : URL.render ⟨"a".data, none, "/./../x".data, none⟩ =
        "https://a/./../x".data := by
      simp [URL.render, portPart, queryPart]
    have hp : URL.fromString "https://a/./../x".data =
        some ⟨"a".data, none, "/x".data, none⟩ := by
      simp [URL.fromString, stripCW, keepChar, splitOnFirst, spanUntil, isAuthEnd,
        afterLastAt, parsePort, isDigitChar, digitsToNat, digitVal, Char.toLower,
        hpath3]
    rw [hr, hp]
    simp
  · have hq : pctNormalize "%7%34".data = "%74".data := by
      simp [pctNormalize, hexVal, isUnreservedByte, hexDigitUpper]
    have hp : URL.fromString "https://a/p?%7%34".data =
        some ⟨"a".data, none, "/p".data, some "%74".data⟩ := by
      simp [URL.fromString, stripCW, keepChar, splitOnFirst, spanUntil, isAuthEnd,
        afterLastAt, parsePort, isDigitChar, digitsToNat, digitVal, Char.toLower,
        epathp, hq]
    rw [hp]
    have hn : URL.normalize ⟨"a".data, none, "/p".data, some "%74".data⟩ =
        ⟨"a".data, none, "/p".data, some "%74".data⟩ := by
      unfold URL.normalize
      dsimp only [Option.map]
      rw [show splitAmp "%74".data = ["%74".data] from splitAmp_no_amp (by decide)]
      simp [joinAmp, rstripSlash]
    simp [hn]
  · have hq2 : pctNormalize "%74".data = "t".data := by
      simp [pctNormalize, hexVal, isUnreservedByte]
    have hr : URL.render ⟨"a".data, none, "/p".data, some "%74".data⟩ =
        "https://a/p?%74".data := by
      simp [URL.render, portPart, queryPart]
    have hp : URL.fromString "https://a/p?%74".data =
        some ⟨"a".data, none, "/p".data, some "t".data⟩ := by
      simp [URL.fromString, stripCW, keepChar, splitOnFirst, spanUntil, isAuthEnd,
        afterLastAt, parsePort, isDigitChar, digitsToNat, digitVal, Char.toLower,
        epathp, hq2]
    rw [hr, hp]
    simp

theorem toLower_eq_self {c : Char} (h : ¬ (65 ≤ c.toNat ∧ c.toNat ≤ 90)) :
    Char.toLower c = c := by
  simp only [Char.toLower]
  rw [if_neg]
  intro hc
  exact h ⟨hc.1, hc.2⟩

theorem toLower_toNat_upper {c : Char} (h : 65 ≤ c.toNat ∧ c.toNat ≤ 90) :
    (Char.toLower c).toNat = c.toNat + 32 := by
  simp only [Char.toLower]
  rw [if_pos ⟨h.1, h.2⟩]
  exact char_toNat_ofNat (by omega)

theorem toLower_toLower (c : Char) :
    Char.toLower (Char.toLower c) = Char.toLower c := by
  by_cases h : 65 ≤ c.toNat ∧ c.toNat ≤ 90
  · have h1 := toLower_toNat_upper h
    exact toLower_eq_self (by omega)
  · rw [toLower_eq_self h]
    exact toLower_eq_self h

theorem toLower_keepChar {c : Char} (h : keepChar c = true) :
    keepChar (Char.toLower c) = true := by
  unfold keepChar at h ⊢
  simp only [decide_eq_true_eq] at h ⊢
  by_cases hc : 65 ≤ c.toNat ∧ c.toNat ≤ 90
  · rw [toLower_toNat_upper hc]
    omega
  · rw [toLower_eq_self hc]
    exact h

theorem toLower_lt256 {c : Char} (h : c.toNat < 256) :
    (Char.toLower c).toNat < 256 := by
  by_cases hc : 65 ≤ c.toNat ∧ c.toNat ≤ 90
  · rw [toLower_toNat_upper hc]
    omega
  · rw [toLower_eq_self hc]
    exact h

theorem char_ne_of_toNat_ne {c x : Char} (h : c.toNat ≠ x.toNat) : c ≠ x :=
  fun he => h (he ▸ rfl)

theorem toLower_ne {c x : Char} (hx : x.toNat < 97) (hc : c ≠ x) :
    Char.toLower c ≠ x := by
  by_cases h : 65 ≤ c.toNat ∧ c.toNat ≤ 90
  · have h1 := toLower_toNat_upper h
    exact char_ne_of_toNat_ne (by omega)
  · rw [toLower_eq_self h]
    exact hc

theorem isAuthEnd_false_iff {c : Char} :
    isAuthEnd c = false ↔ (c ≠ '/' ∧ c ≠ '?' ∧ c ≠ '#') := by
  unfold isAuthEnd
  simp only [decide_eq_false_iff_not, not_or]

theorem isUnreservedByte_range {b : ℕ} (h : isUnreservedByte b = true) :
    32 < b ∧ b ≠ 127 ∧ b < 256 ∧ b ≠ 35 ∧ b ≠ 38 ∧ b ≠ 63 := by
  unfold isUnreservedByte at h
  simp only [decide_eq_true_eq] at h
  omega

theorem prefix_head {l₁ l₂ : List Char} {c : Char} {t : List Char}
    (hp : l₁ <+: l₂) (h : l₁ = c :: t) : ∃ t₂, l₂ = c :: t₂ := by
  obtain ⟨r, hr⟩ := hp
  subst h
  exact ⟨t ++ r, by rw [← hr]; simp⟩

theorem splitOnFirst_fst_prefix {sep : Char} : ∀ {l : List Char},
    (splitOnFirst sep l).1 <+: l := by
  intro l
  induction l with
  | nil => exact List.prefix_refl _
  | cons x rest ih =>
    simp only [splitOnFirst]
    by_cases hx : x = sep
    · rw [if_pos hx]
      exact List.nil_prefix
    · rw [if_neg hx]
      simp only
      exact List.cons_prefix_cons.mpr ⟨rfl, ih⟩

theorem splitOnFirst_none_fst {sep : Char} : ∀ {l : List Char},
    (splitOnFirst sep l).2 = none → (splitOnFirst sep l).1 = l := by
  intro l
  induction l with
  | nil => intro _; rfl
  | cons x rest ih =>
    intro h
    simp only [splitOnFirst] at h ⊢
    by_cases hx : x = sep
    · rw [if_pos hx] at h
      exact absurd h (by simp)
    · rw [if_neg hx] at h ⊢
      simp only at h ⊢
      rw [ih h]

theorem pctNormalize_esc_invalid {c1 c2 : Char} (rest' : List Char)
    (hv : ∀ h1 h2 : ℕ, hexVal c1 = some h1 → hexVal c2 = some h2 → False) :
    pctNormalize ('%' :: c1 :: c2 :: rest') = '%' :: pctNormalize (c1 :: c2 :: rest') := by
  conv_lhs => rw [pctNormalize.eq_def]
  dsimp only
  rw [if_pos rfl]
  rcases hv1 : hexVal c1 with _ | h1 <;> rcases hv2 : hexVal c2 with _ | h2 <;>
    simp [hv1, hv2]
  exact absurd (hv h1 h2 hv1 hv2) (fun h => h)

theorem pctNormalize_pct_short (short : List Char)
    (h : ∀ (c1 c2 : Char) (rest' : List Char), short ≠ c1 :: c2 :: rest') :
    pctNormalize ('%' :: short) = '%' :: pctNormalize short := by
  conv_lhs => rw [pctNormalize.eq_def]
  dsimp only
  rw [if_pos rfl]
  match short, h with
  | [], _ => rfl
  | [c1], _ => rfl
  | c1 :: c2 :: rest', h => exact absurd rfl (h c1 c2 rest')

theorem unquote_esc_invalid {c1 c2 : Char} (rest' : List Char)
    (hv : ∀ h1 h2 : ℕ, hexVal c1 = some h1 → hexVal c2 = some h2 → False) :
    unquote ('%' :: c1 :: c2 :: rest') = '%' :: unquote (c1 :: c2 :: rest') := by
  conv_lhs => rw [unquote.eq_def]
  dsimp only
  rw [if_pos rfl]
  rcases hv1 : hexVal c1 with _ | h1 <;> rcases hv2 : hexVal c2 with _ | h2 <;>
    simp [hv1, hv2]
  exact absurd (hv h1 h2 hv1 hv2) (fun h => h)

theorem unquote_pct_short (short : List Char)
    (h : ∀ (c1 c2 : Char) (rest' : List Char), short ≠ c1 :: c2 :: rest') :
    unquote ('%' :: short) = '%' :: unquote short := by
  conv_lhs => rw [unquote.eq_def]
  dsimp only
  rw [if_pos rfl]
  match short, h with
  | [], _ => rfl
  | [c1], _ => rfl
  | c1 :: c2 :: rest', h => exact absurd rfl (h c1 c2 rest')

theorem pctNormalize_mem : ∀ (l : List Char) {c : Char}, c ∈ pctNormalize l →
    c ∈ l ∨ c = '%' ∨ (∃ h, h < 16 ∧ c = hexDigitUpper h) ∨
      (∃ b, isUnreservedByte b = true ∧ c = Char.ofNat b) := by
  intro l
  induction l using pctNormalize.induct with
  | case1 =>
    intro c hc
    rw [pctNormalize_nil] at hc
    exact absurd hc (List.not_mem_nil c)
  | case2 c1 c2 rest' h1 h2 hv2 hv1 hu ih =>
    intro c hc
    rw [pctNormalize_esc_dec _ hv1 hv2 hu] at hc
    rcases List.mem_cons.mp hc with rfl | hc'
    · exact Or.inr (Or.inr (Or.inr ⟨16 * h1 + h2, hu, rfl⟩))
    · rcases ih hc' with h | h
      · exact Or.inl (by simp [h])
      · exact Or.inr h
  | case3 c1 c2 rest' h1 h2 hv2 hv1 hu ih =>
    intro c hc
    rw [pctNormalize_esc_keep _ hv1 hv2 (Bool.not_eq_true _ ▸ Bool.eq_false_iff.mpr hu)] at hc
    have hh1 : h1 < 16 := by
      unfold hexVal at hv1
      split_ifs at hv1 <;> simp only [Option.some.injEq] at hv1 <;> omega
    have hh2 : h2 < 16 := by
      unfold hexVal at hv2
      split_ifs at hv2 <;> simp only [Option.some.injEq] at hv2 <;> omega
    rcases List.mem_cons.mp hc with rfl | hc'
    · exact Or.inr (Or.inl rfl)
    rcases List.mem_cons.mp hc' with rfl | hc''
    · exact Or.inr (Or.inr (Or.inl ⟨h1, hh1, rfl⟩))
    rcases List.mem_cons.mp hc'' with rfl | hc'''
    · exact Or.inr (Or.inr (Or.inl ⟨h2, hh2, rfl⟩))
    · rcases ih hc''' with h | h
      · exact Or.inl (by simp [h])
      · exact Or.inr h
  | case4 c1 c2 rest' hv ih =>
    intro c hc
    rw [pctNormalize_esc_invalid _ hv] at hc
    rcases List.mem_cons.mp hc with rfl | hc'
    · exact Or.inr (Or.inl rfl)
    · rcases ih hc' with h | h
      · exact Or.inl (by simp [h])
      · exact Or.inr h
  | case5 short hshort ih =>
    intro c hc
    rw [pctNormalize_pct_short _ (fun c1 c2 rest' he => hshort c1 c2 rest' he)] at hc
    rcases List.mem_cons.mp hc with rfl | hc'
    · exact Or.inr (Or.inl rfl)
    · rcases ih hc' with h | h
      · exact Or.inl (by simp [h])
      · exact Or.inr h
  | case6 c0 rest hc0 ih =>
    intro c hc
    rw [pctNormalize_cons_ne _ hc0] at hc
    rcases List.mem_cons.mp hc with rfl | hc'
    · exact Or.inl (List.mem_cons_self _ _)
    · rcases ih hc' with h | h
      · exact Or.inl (by simp [h])
      · exact Or.inr h

theorem unquote_mem : ∀ (l : List Char) {c : Char}, c ∈ unquote l →
    c ∈ l ∨ ∃ b, b < 256 ∧ c = Char.ofNat b := by
  intro l
  induction l using unquote.induct with
  | case1 =>
    intro c hc
    rw [unquote_nil] at hc
    exact absurd hc (List.not_mem_nil c)
  | case2 c1 c2 rest' h1 h2 hv2 hv1 ih =>
    intro c hc
    rw [unquote_esc _ hv1 hv2] at hc
    have hh1 : h1 < 16 := by
      unfold hexVal at hv1
      split_ifs at hv1 <;> simp only [Option.some.injEq] at hv1 <;> omega
    have hh2 : h2 < 16 := by
      unfold hexVal at hv2
      split_ifs at hv2 <;> simp only [Option.some.injEq] at hv2 <;> omega
    rcases List.mem_cons.mp hc with rfl | hc'
    · exact Or.inr ⟨16 * h1 + h2, by omega, rfl⟩
    · rcases ih hc' with h | h
      · exact Or.inl (by simp [h])
      · exact Or.inr h
  | case3 c1 c2 rest' hv ih =>
    intro c hc
    rw [unquote_esc_invalid _ hv] at hc
    rcases List.mem_cons.mp hc with rfl | hc'
    · exact Or.inl (List.mem_cons_self _ _)
    · rcases ih hc' with h | h
      · exact Or.inl (by simp [h])
      · exact Or.inr h
  | case4 short hshort ih =>
    intro c hc
    rw [unquote_pct_short _ (fun c1 c2 rest' he => hshort c1 c2 rest' he)] at hc
    rcases List.mem_cons.mp hc with rfl | hc'
    · exact Or.inl (List.mem_cons_self _ _)
    · rcases ih hc' with h | h
      · exact Or.inl (by simp [h])
      · exact Or.inr h
  | case5 c0 rest hc0 ih =>
    intro c hc
    rw [unquote_cons_ne _ hc0] at hc
    rcases List.mem_cons.mp hc with rfl | hc'
    · exact Or.inl (List.mem_cons_self _ _)
    · rcases ih hc' with h | h
      · exact Or.inl (by simp [h])
      · exact Or.inr h

theorem map_toLower_fixed {l : List Char} (h : ∀ c ∈ l, Char.toLower c = c) :
    l.map Char.toLower = l := by
  induction l with
  | nil => rfl
  | cons c rest ih =>
    rw [List.map_cons, h c (List.mem_cons_self c rest),
      ih (fun x hx => h x (List.mem_cons_of_mem c hx))]

theorem pctNormalize_lt256 {l : List Char} (hl : ∀ c ∈ l, c.toNat < 256) :
    ∀ c ∈ pctNormalize l, c.toNat < 256 := by
  intro c hc
  rcases pctNormalize_mem l hc with h | rfl | ⟨h, hh, rfl⟩ | ⟨b, hb, rfl⟩
  · exact hl c h
  · decide
  · exact (hexDigitUpper_facts hh).2.2.2.2.2.2
  · rw [char_toNat_ofNat (isUnreservedByte_range hb).2.2.1]
    exact (isUnreservedByte_range hb).2.2.1

theorem unquote_lt256 {l : List Char} (hl : ∀ c ∈ l, c.toNat < 256) :
    ∀ c ∈ unquote l, c.toNat < 256 := by
  intro c hc
  rcases unquote_mem l hc with h | ⟨b, hb, rfl⟩
  · exact hl c h
  · rw [char_toNat_ofNat hb]; exact hb

/-- Percent-normalization preserves the renderable-query character
facts: printable, byte-sized, no `#`. -/
theorem pctNormalize_chars {l : List Char}
    (hl : ∀ c ∈ l, keepChar c = true ∧ c.toNat < 256 ∧ c ≠ '#') :
    ∀ c ∈ pctNormalize l, keepChar c = true ∧ c.toNat < 256 ∧ c ≠ '#' := by
  intro c hc
  rcases pctNormalize_mem l hc with h | rfl | ⟨h, hh, rfl⟩ | ⟨b, hb, rfl⟩
  · exact hl c h
  · exact ⟨by decide, by decide, by decide⟩
  · obtain ⟨_, _, _, h4, h5, h6, h7⟩ := hexDigitUpper_facts hh
    refine ⟨?_, h7, h4⟩
    unfold keepChar
    simp only [decide_eq_true_eq]
    exact ⟨h5, h6⟩
  · obtain ⟨hb1, hb2, hb3, hb4, _, _⟩ := isUnreservedByte_range hb
    refine ⟨?_, ?_, ?_⟩
    · unfold keepChar
      rw [char_toNat_ofNat hb3]
      simp only [decide_eq_true_eq]
      exact ⟨hb1, hb2⟩
    · rw [char_toNat_ofNat hb3]; exact hb3
    · apply char_ne_of_toNat_ne
      rw [char_toNat_ofNat hb3]
      have h35 : ('#').toNat = 35 := by decide
      rw [h35]
      exact hb4

/-- The path pipeline of `from_rfc3986_uri` yields a quoted normal
form whenever the raw path is made of bytes. -/
theorem path_pipeline_QNF {raw : List Char} (h : ∀ c ∈ raw, c.toNat < 256) :
    QNF (requote (rds (pctNormalize raw))) := by
  unfold requote
  apply QNF_quote
  intro c hc
  rcases unquote_mem _ hc with h' | ⟨b, hb, rfl⟩
  · unfold rds at h'
    rcases rdsLoop_mem [] (pctNormalize raw) h' with h'' | h'' | rfl
    · exact absurd h'' (List.not_mem_nil c)
    · exact pctNormalize_lt256 h c h''
    · decide
  · rw [char_toNat_ofNat hb]; exact hb

theorem requote_cons_slash (t : List Char) :
    requote ('/' :: t) = '/' :: quote (unquote t) := by
  unfold requote
  rw [unquote_cons_ne _ (by decide), quote_cons]
  unfold quoteChar
  rw [if_pos (by decide)]
  rfl

/-- The path pipeline keeps a leading slash. -/
theorem path_pipeline_slashLed {raw t : List Char} (h : raw = '/' :: t) :
    ∃ r, requote (rds (pctNormalize raw)) = '/' :: r := by
  subst h
  rw [pctNormalize_cons_ne _ (by decide)]
  obtain ⟨r, hr⟩ := rdsLoop_slashLed [] ('/' :: pctNormalize t)
    (Or.inl rfl) (Or.inr ⟨pctNormalize t, rfl⟩)
    (fun _ => List.cons_ne_nil _ _)
  unfold rds
  rw [hr, requote_cons_slash]
  exact ⟨quote (unquote r), rfl⟩

/-- `normalize` keeps the path slash-led, non-empty and in quoted
normal form. -/
theorem normalize_path_facts {u : URL} {t : List Char} (hq : QNF u.path)
    (hs : u.path = '/' :: t) :
    QNF (URL.normalize u).path ∧ ∃ r, (URL.normalize u).path = '/' :: r := by
  have hstrip : QNF (rstripSlash u.path) := QNF_rstripSlash hq
  cases hr : rstripSlash t with
  | nil =>
    have h0 : rstripSlash u.path = [] := by
      rw [hs, rstripSlash_cons_slash, hr]
    have hp : (URL.normalize u).path = ['/'] := by
      show (match rstripSlash u.path with | [] => ['/'] | p => p) = ['/']
      rw [h0]
    rw [hp]
    exact ⟨QNF.safe (by decide) QNF.nil, [], rfl⟩
  | cons x r =>
    have h0 : rstripSlash u.path = '/' :: x :: r := by
      rw [hs, rstripSlash_cons_slash, hr]
    have hp : (URL.normalize u).path = '/' :: x :: r := by
      show (match rstripSlash u.path with | [] => ['/'] | p => p) = '/' :: x :: r
      rw [h0]
    rw [hp]
    exact ⟨h0 ▸ hstrip, x :: r, rfl⟩

theorem splitAmp_eq_single {q a : List Char}
    (h : splitOnFirst '&' q = (a, none)) : splitAmp q = [a] := by
  conv_lhs => rw [splitAmp.eq_def]
  split
  · rename_i a' heq
    rw [h] at heq
    injection heq with h1 _
    rw [h1]
  · rename_i a' rest' heq
    rw [h] at heq
    injection heq with h1 h2
    exact absurd h2 (by simp)

theorem splitAmp_eq_cons {q a rest : List Char}
    (h : splitOnFirst '&' q = (a, some rest)) :
    splitAmp q = a :: splitAmp rest := by
  conv_lhs => rw [splitAmp.eq_def]
  split
  · rename_i a' heq
    rw [h] at heq
    injection heq with h1 h2
    exact absurd h2 (by simp)
  · rename_i a' rest' heq
    rw [h] at heq
    injection heq with h1 h2
    injection h2 with h3
    rw [h1, h3]

theorem splitAmp_ne_nil (q : List Char) : splitAmp q ≠ [] := by
  cases hs : splitOnFirst '&' q with
  | mk a b =>
    cases b with
    | none => rw [splitAmp_eq_single hs]; exact List.cons_ne_nil _ _
    | some rest => rw [splitAmp_eq_cons hs]; exact List.cons_ne_nil _ _

theorem splitAmp_single {q a : List Char} (h : splitAmp q = [a]) : a = q := by
  cases hs : splitOnFirst '&' q with
  | mk a' b =>
    cases b with
    | none =>
      rw [splitAmp_eq_single hs] at h
      injection h with h1 _
      have h2 := splitOnFirst_none_fst (show (splitOnFirst '&' q).2 = none by rw [hs])
      rw [hs] at h2
      rw [← h1]
      exact h2
    | some rest =>
      rw [splitAmp_eq_cons hs] at h
      injection h with _ h2
      exact absurd h2 (splitAmp_ne_nil rest)

theorem splitAmp_token_mem : ∀ (q : List Char), ∀ t ∈ splitAmp q, ∀ c ∈ t, c ∈ q := by
  intro q
  induction q using splitAmp.induct with
  | case1 x a heq =>
    intro t ht c hc
    rw [splitAmp_eq_single heq] at ht
    rcases List.mem_cons.mp ht with rfl | ht'
    · have hm : c ∈ (splitOnFirst '&' x).1 := by rw [heq]; exact hc
      exact (splitOnFirst_fst_mem hm).1
    · exact absurd ht' (List.not_mem_nil t)
  | case2 x a rest heq ih =>
    intro t ht c hc
    rw [splitAmp_eq_cons heq] at ht
    rcases List.mem_cons.mp ht with rfl | ht'
    · have hm : c ∈ (splitOnFirst '&' x).1 := by rw [heq]; exact hc
      exact (splitOnFirst_fst_mem hm).1
    · exact splitOnFirst_snd_mem
        (show (splitOnFirst '&' x).2 = some rest by rw [heq]) c (ih t ht' c hc)

theorem joinAmp_mem : ∀ (ts : List (List Char)) {c : Char}, c ∈ joinAmp ts →
    c = '&' ∨ ∃ t ∈ ts, c ∈ t := by
  intro ts
  induction ts with
  | nil =>
    intro c hc
    exact absurd hc (List.not_mem_nil c)
  | cons t ts ih =>
    intro c hc
    cases ts with
    | nil => exact Or.inr ⟨t, List.mem_cons_self t [], hc⟩
    | cons t2 ts2 =>
      have he : joinAmp (t :: t2 :: ts2) = t ++ '&' :: joinAmp (t2 :: ts2) := rfl
      rw [he] at hc
      rcases List.mem_append.mp hc with h | h
      · exact Or.inr ⟨t, List.mem_cons_self _ _, h⟩
      · rcases List.mem_cons.mp h with rfl | h'
        · exact Or.inl rfl
        · rcases ih h' with h'' | ⟨t', ht', hc'⟩
          · exact Or.inl h''
          · exact Or.inr ⟨t', List.mem_cons_of_mem t ht', hc'⟩

theorem joinAmp_ne_nil_two (t1 t2 : List Char) (ts : List (List Char)) :
    joinAmp (t1 :: t2 :: ts) ≠ [] := by
  have he : joinAmp (t1 :: t2 :: ts) = t1 ++ '&' :: joinAmp (t2 :: ts) := rfl
  rw [he]
  simp

/-- `normalize`'s query step — split on `&`, sort, re-join — keeps the
query non-empty and its characters renderable. -/
theorem normalize_query_facts {q : List Char} (hne : q ≠ [])
    (hc : ∀ c ∈ q, keepChar c = true ∧ c.toNat < 256 ∧ c ≠ '#') :
    joinAmp (List.mergeSort (splitAmp q) lexLe) ≠ [] ∧
      ∀ c ∈ joinAmp (List.mergeSort (splitAmp q) lexLe),
        keepChar c = true ∧ c.toNat < 256 ∧ c ≠ '#' := by
  have hperm : List.Perm (List.mergeSort (splitAmp q) lexLe) (splitAmp q) :=
    List.mergeSort_perm _ _
  constructor
  · cases hts : splitAmp q with
    | nil => exact absurd hts (splitAmp_ne_nil q)
    | cons t ts =>
      cases ts with
      | nil =>
        have hperm2 : List.Perm (List.mergeSort [t] lexLe) [t] :=
          List.mergeSort_perm _ _
        rw [List.perm_singleton.mp hperm2, show joinAmp [t] = t from rfl,
          splitAmp_single hts]
        exact hne
      | cons t2 ts2 =>
        have hperm2 : List.Perm (List.mergeSort (t :: t2 :: ts2) lexLe)
            (t :: t2 :: ts2) := List.mergeSort_perm _ _
        have hlen := hperm2.length_eq
        cases hms : List.mergeSort (t :: t2 :: ts2) lexLe with
        | nil =>
          rw [hms] at hlen
          simp only [List.length_cons, List.length_nil] at hlen
          omega
        | cons s1 ss =>
          cases ss with
          | nil =>
            rw [hms] at hlen
            simp only [List.length_cons, List.length_nil] at hlen
            omega
          | cons s2 ss2 =>
            exact joinAmp_ne_nil_two s1 s2 ss2
  · intro c hcm
    rcases joinAmp_mem _ hcm with rfl | ⟨t, ht, hct⟩
    · exact ⟨by decide, by decide, by decide⟩
    · exact hc c (splitAmp_token_mem q t (hperm.subset ht) c hct)

theorem parsePort_natDigits {n : ℕ} (h : n ≠ 443) :
    parsePort (some (natDigits n)) = some (some n) := by
  unfold parsePort
  dsimp only
  have hall : (natDigits n).all isDigitChar = true := by
    rw [List.all_eq_true]
    intro c hc
    obtain ⟨h1, h2⟩ := natDigits_chars hc
    unfold isDigitChar
    simp only [decide_eq_true_eq]
    exact ⟨h1, h2⟩
  rw [if_neg (natDigits_ne_nil n), if_neg (not_not_intro hall),
    if_neg (natDigits_ne_443 h), digitsToNat_natDigits]

/-- The path pipeline is the identity on a dot-free quoted normal
form. -/
theorem path_reparse {p : List Char} (hq : QNF p) (hd : noDots p = true) :
    requote (rds (pctNormalize p)) = p := by
  rw [pctNormalize_QNF hq]
  unfold rds
  rw [rdsLoop_noDots [] p hd, List.nil_append]
  exact requote_QNF hq

theorem digit_char_facts {c : Char} (h1 : 48 ≤ c.toNat) (h2 : c.toNat ≤ 57) :
    keepChar c = true ∧ c.toNat < 256 ∧ isAuthEnd c = false ∧
      c ≠ '@' ∧ c ≠ '#' ∧ c ≠ ':' := by
  have e47 : ('/').toNat = 47 := by decide
  have e63 : ('?').toNat = 63 := by decide
  have e35 : ('#').toNat = 35 := by decide
  have e64 : ('@').toNat = 64 := by decide
  have e58 : (':').toNat = 58 := by decide
  refine ⟨?_, by omega, ?_, ?_, ?_, ?_⟩
  · unfold keepChar
    simp only [decide_eq_true_eq]
    omega
  · rw [isAuthEnd_false_iff]
    exact ⟨char_ne_of_toNat_ne (by omega), char_ne_of_toNat_ne (by omega),
      char_ne_of_toNat_ne (by omega)⟩
  · exact char_ne_of_toNat_ne (by omega)
  · exact char_ne_of_toNat_ne (by omega)
  · exact char_ne_of_toNat_ne (by omega)

theorem portPart_chars {P : Option ℕ} {c : Char} (h : c ∈ portPart P) :
    keepChar c = true ∧ c.toNat < 256 ∧ isAuthEnd c = false ∧
      c ≠ '@' ∧ c ≠ '#' := by
  cases P with
  | none => exact absurd h (List.not_mem_nil c)
  | some n =>
    unfold portPart at h
    rcases List.mem_cons.mp h with rfl | h'
    · exact ⟨by decide, by decide, by decide, by decide, by decide⟩
    · obtain ⟨h1, h2⟩ := natDigits_chars h'
      obtain ⟨k1, k2, k3, k4, k5, _⟩ := digit_char_facts h1 h2
      exact ⟨k1, k2, k3, k4, k5⟩

theorem QNF_keepChar {l : List Char} (h : QNF l) :
    ∀ c ∈ l, keepChar c = true ∧ c.toNat < 256 ∧ c ≠ '#' ∧ c ≠ '?' := by
  intro c hc
  obtain ⟨hq, hhash, hgt, hne, hlt⟩ := QNF_chars h c hc
  refine ⟨?_, hlt, hhash, hq⟩
  unfold keepChar
  simp only [decide_eq_true_eq]
  exact ⟨hgt, hne⟩

/-- Re-parsing the rendering of a URL whose components carry the
parser/normalizer invariants reproduces it exactly: the host is
non-empty, lowercase, printable and free of separators; the path is a
slash-led, dot-free quoted normal form; the port is not the dropped
`443`; the query, when present, is non-empty, stable under
percent-normalization, printable and free of `#`. -/
theorem fromString_render_core (H : List Char) (P : Option ℕ)
    (pt : List Char) (Q : Option (List Char))
    (hh_ne : H ≠ [])
    (hh : ∀ c ∈ H, keepChar c = true ∧ c.toNat < 256 ∧
      Char.toLower c = c ∧ c ≠ ':' ∧ c ≠ '@' ∧ isAuthEnd c = false)
    (hpq : QNF ('/' :: pt))
    (hdots : noDots ('/' :: pt) = true)
    (hport : P ≠ some 443)
    (hq : ∀ q, Q = some q → q ≠ [] ∧ pctNormalize q = q ∧
      ∀ c ∈ q, keepChar c = true ∧ c.toNat < 256 ∧ c ≠ '#') :
    URL.fromString (URL.render ⟨H, P, '/' :: pt, Q⟩) = some ⟨H, P, '/' :: pt, Q⟩ := by
  have hpath := QNF_keepChar hpq
  have hQ : ∀ c ∈ queryPart Q, keepChar c = true ∧ c.toNat < 256 ∧ c ≠ '#' := by
    intro c hc
    cases Q with
    | none => exact absurd hc (List.not_mem_nil c)
    | some q =>
      unfold queryPart at hc
      rcases List.mem_cons.mp hc with rfl | hc'
      · exact ⟨by decide, by decide, by decide⟩
      · exact (hq q rfl).2.2 c hc'
  have hrender : URL.render ⟨H, P, '/' :: pt, Q⟩ =
      'h' :: 't' :: 't' :: 'p' :: 's' :: ':' :: '/' :: '/' ::
        (H ++ (portPart P ++ ('/' :: (pt ++ queryPart Q)))) := by
    unfold URL.render
    simp [List.append_assoc]
  have hkeepAll : ∀ c ∈ ('h' :: 't' :: 't' :: 'p' :: 's' :: ':' :: '/' :: '/' ::
      (H ++ (portPart P ++ ('/' :: (pt ++ queryPart Q))))), keepChar c = true := by
    intro c hc
    simp only [List.mem_cons, List.mem_append] at hc
    rcases hc with rfl|rfl|rfl|rfl|rfl|rfl|rfl|rfl|hH|hP|rfl|hpt|hq'
    · decide
    · decide
    · decide
    · decide
    · decide
    · decide
    · decide
    · decide
    · exact (hh c hH).1
    · exact (portPart_chars hP).1
    · decide
    · exact (hpath c (List.mem_cons_of_mem _ hpt)).1
    · exact (hQ c hq').1
  have hltAll : ∀ c ∈ ('h' :: 't' :: 't' :: 'p' :: 's' :: ':' :: '/' :: '/' ::
      (H ++ (portPart P ++ ('/' :: (pt ++ queryPart Q))))), c.toNat < 256 := by
    intro c hc
    simp only [List.mem_cons, List.mem_append] at hc
    rcases hc with rfl|rfl|rfl|rfl|rfl|rfl|rfl|rfl|hH|hP|rfl|hpt|hq'
    · decide
    · decide
    · decide
    · decide
    · decide
    · decide
    · decide
    · decide
    · exact (hh c hH).2.1
    · exact (portPart_chars hP).2.1
    · decide
    · exact (hpath c (List.mem_cons_of_mem _ hpt)).2.1
    · exact (hQ c hq').2.1
  rw [hrender]
  unfold URL.fromString
  simp only []
  rw [stripCW_eq_self hkeepAll]
  have hall : ('h' :: 't' :: 't' :: 'p' :: 's' :: ':' :: '/' :: '/' ::
      (H ++ (portPart P ++ ('/' :: (pt ++ queryPart Q))))).all
        (fun c => decide (c.toNat < 256)) = true := by
    rw [List.all_eq_true]
    intro c hc
    simp only [decide_eq_true_eq]
    exact hltAll c hc
  rw [if_neg (not_not_intro hall)]
  have hcolon : splitOnFirst ':' ('h' :: 't' :: 't' :: 'p' :: 's' :: ':' :: '/' :: '/' ::
      (H ++ (portPart P ++ ('/' :: (pt ++ queryPart Q))))) =
      ('h' :: 't' :: 't' :: 'p' :: 's' :: [],
        some ('/' :: '/' :: (H ++ (portPart P ++ ('/' :: (pt ++ queryPart Q)))))) := by
    have h0 := splitOnFirst_append
      ('/' :: '/' :: (H ++ (portPart P ++ ('/' :: (pt ++ queryPart Q)))))
      (show ':' ∉ ('h' :: 't' :: 't' :: 'p' :: 's' :: []) by decide)
    simpa using h0
  rw [hcolon]
  dsimp only
  have hlow : List.map Char.toLower ('h' :: 't' :: 't' :: 'p' :: 's' :: []) = "https".data := by
    decide
  rw [if_neg (not_not_intro (Or.inr hlow))]
  rw [if_neg (not_not_intro (show List.take 2 ('/' :: '/' ::
      (H ++ (portPart P ++ ('/' :: (pt ++ queryPart Q))))) = ['/', '/'] from rfl))]
  rw [show List.drop 2 ('/' :: '/' :: (H ++ (portPart P ++ ('/' :: (pt ++ queryPart Q))))) =
      H ++ (portPart P ++ ('/' :: (pt ++ queryPart Q))) from rfl]
  have hAnoauth : ∀ x ∈ H ++ portPart P, isAuthEnd x = false := by
    intro x hx
    rcases List.mem_append.mp hx with h | h
    · exact (hh x h).2.2.2.2.2
    · exact (portPart_chars h).2.2.1
  have hspan0 := spanUntil_append (pt ++ queryPart Q) hAnoauth
    (show isAuthEnd '/' = true by decide)
  rw [List.append_assoc] at hspan0
  rw [hspan0]
  dsimp only
  have hnohash : '#' ∉ '/' :: (pt ++ queryPart Q) := by
    intro hmem
    rcases List.mem_cons.mp hmem with he | hmem'
    · exact absurd he (by decide)
    · rcases List.mem_append.mp hmem' with h | h
      · exact (hpath '#' (List.mem_cons_of_mem _ h)).2.2.1 rfl
      · exact (hQ '#' h).2.2 rfl
  rw [splitOnFirst_no_sep hnohash]
  dsimp only
  have hnoat : '@' ∉ H ++ portPart P := by
    intro hmem
    rcases List.mem_append.mp hmem with h | h
    · exact (hh '@' h).2.2.2.2.1 rfl
    · exact (portPart_chars h).2.2.2.1 rfl
  rw [afterLastAt_no_at hnoat]
  have hnocolonH : ':' ∉ H := fun hm => (hh ':' hm).2.2.2.1 rfl
  have hnoqpath : '?' ∉ ('/' :: pt) := fun hm => (hpath '?' hm).2.2.2 rfl
  have hmap : List.map Char.toLower H = H :=
    map_toLower_fixed (fun c hc => (hh c hc).2.2.1)
  cases Q with
  | none =>
    simp only [queryPart, List.append_nil]
    rw [show ('/' :: pt : List Char) = ('/' :: pt) from rfl] at hnoqpath
    rw [splitOnFirst_no_sep hnoqpath]
    dsimp only
    cases P with
    | none =>
      simp only [portPart, List.append_nil]
      rw [splitOnFirst_no_sep hnocolonH]
      dsimp only
      rw [if_neg hh_ne]
      simp only [parsePort]
      rw [hmap, if_neg (List.cons_ne_nil '/' pt), path_reparse hpq hdots]
    | some n =>
      simp only [portPart]
      have h0 := splitOnFirst_append (natDigits n) hnocolonH
      rw [h0]
      dsimp only
      rw [if_neg hh_ne]
      have hn : n ≠ 443 := fun he => hport (by rw [he])
      rw [parsePort_natDigits hn]
      dsimp only
      rw [hmap, if_neg (List.cons_ne_nil '/' pt), path_reparse hpq hdots]
  | some q =>
    simp only [queryPart]
    obtain ⟨hqne, hqstab, _⟩ := hq q rfl
    have h1 := splitOnFirst_append q hnoqpath
    rw [List.cons_append] at h1
    rw [h1]
    dsimp only
    cases P with
    | none =>
      simp only [portPart, List.append_nil]
      rw [splitOnFirst_no_sep hnocolonH]
      dsimp only
      rw [if_neg hh_ne]
      simp only [parsePort]
      rw [hmap, if_neg (List.cons_ne_nil '/' pt), path_reparse hpq hdots,
        hqstab, if_neg hqne]
    | some n =>
      simp only [portPart]
      have h0 := splitOnFirst_append (natDigits n) hnocolonH
      rw [h0]
      dsimp only
      rw [if_neg hh_ne]
      have hn : n ≠ 443 := fun he => hport (by rw [he])
      rw [parsePort_natDigits hn]
      dsimp only
      rw [hmap, if_neg (List.cons_ne_nil '/' pt), path_reparse hpq hdots,
        hqstab, if_neg hqne]

/-- **C9** (amended).  For every string accepted by `parse`, re-parsing
the rendering of the canonical form reproduces the canonical form —
provided the canonical form's path is free of dot-segments, its port is
not the dropped `443`, and its query (when present) is stable under
percent-normalization.  Without those provisos the round trip fails
(`C9_counterexample`): a port written `0443` is kept as number 443 and
dropped on re-parse, a path like `/./../x` is re-collapsed, and a query
like `%74` is decoded further. -/
theorem C9_round_trip (s : List Char) (u : URL)
    (hparse : URL.fromString s = some u)
    (hdots : noDots (URL.normalize u).path = true)
    (hport : (URL.normalize u).port ≠ some 443)
    (hquery : ∀ q, (URL.normalize u).query = some q → pctNormalize q = q) :
    URL.fromString (URL.render (URL.normalize u)) = some (URL.normalize u) := by
  unfold URL.fromString at hparse
  simp only [] at hparse
  split at hparse
  · exact Option.noConfusion hparse
  rename_i hbytes
  split at hparse
  · exact Option.noConfusion hparse
  rename_i rest heqrest
  split at hparse
  · exact Option.noConfusion hparse
  rename_i hscheme
  split at hparse
  · exact Option.noConfusion hparse
  rename_i htake
  split at hparse
  · exact Option.noConfusion hparse
  rename_i hhne
  split at hparse
  · exact Option.noConfusion hparse
  rename_i port heqpp
  injection hparse with hu
  have hbyte : ∀ c ∈ stripCW s, keepChar c = true ∧ c.toNat < 256 := by
    intro c hc
    refine ⟨(stripCW_mem hc).2, ?_⟩
    have hall := not_not.mp hbytes
    rw [List.all_eq_true] at hall
    have hcc := hall c hc
    simpa using hcc
  have hmemHost : ∀ x ∈ (splitOnFirst ':'
      (afterLastAt (spanUntil isAuthEnd (List.drop 2 rest)).1)).1,
      x ∈ stripCW s ∧ x ≠ ':' ∧ x ≠ '@' ∧ isAuthEnd x = false := by
    intro x hx
    obtain ⟨hx1, hxc⟩ := splitOnFirst_fst_mem hx
    obtain ⟨hx2, hxa⟩ := afterLastAt_mem hx1
    obtain ⟨hx3, hxe⟩ := spanUntil_fst_mem hx2
    have hx4 : x ∈ rest := List.mem_of_mem_drop hx3
    exact ⟨splitOnFirst_snd_mem heqrest x hx4, hxc, hxa, hxe⟩
  have hhost : ∀ c ∈ ((splitOnFirst ':'
      (afterLastAt (spanUntil isAuthEnd (List.drop 2 rest)).1)).1).map Char.toLower,
      keepChar c = true ∧ c.toNat < 256 ∧ Char.toLower c = c ∧
        c ≠ ':' ∧ c ≠ '@' ∧ isAuthEnd c = false := by
    intro c hc
    obtain ⟨x, hxm, rfl⟩ := List.mem_map.mp hc
    obtain ⟨hxs, hxc, hxa, hxe⟩ := hmemHost x hxm
    obtain ⟨hk, hlt⟩ := hbyte x hxs
    obtain ⟨hne1, hne2, hne3⟩ := isAuthEnd_false_iff.mp hxe
    refine ⟨toLower_keepChar hk, toLower_lt256 hlt, toLower_toLower x, ?_, ?_, ?_⟩
    · exact toLower_ne (by decide) hxc
    · exact toLower_ne (by decide) hxa
    · rw [isAuthEnd_false_iff]
      exact ⟨toLower_ne (by decide) hne1, toLower_ne (by decide) hne2,
        toLower_ne (by decide) hne3⟩
  have hrawmem : ∀ x ∈ (splitOnFirst '?'
      (splitOnFirst '#' (spanUntil isAuthEnd (List.drop 2 rest)).2).1).1,
      x ∈ stripCW s := by
    intro x hx
    have hx1 := (splitOnFirst_fst_mem hx).1
    have hx2 := (splitOnFirst_fst_mem hx1).1
    have hx3 := spanUntil_snd_mem hx2
    exact splitOnFirst_snd_mem heqrest x (List.mem_of_mem_drop hx3)
  have hupath : QNF u.path ∧ ∃ t0, u.path = '/' :: t0 := by
    rw [← hu]
    dsimp only
    by_cases hraw : (splitOnFirst '?'
        (splitOnFirst '#' (spanUntil isAuthEnd (List.drop 2 rest)).2).1).1 = []
    · rw [if_pos hraw]
      exact ⟨QNF.safe (by decide) QNF.nil, [], rfl⟩
    · rw [if_neg hraw]
      refine ⟨path_pipeline_QNF (fun c hc => (hbyte c (hrawmem c hc)).2), ?_⟩
      obtain ⟨c0, t0, hct⟩ := List.exists_cons_of_ne_nil hraw
      have hc0mem : c0 ∈ (splitOnFirst '?'
          (splitOnFirst '#' (spanUntil isAuthEnd (List.drop 2 rest)).2).1).1 := by
        rw [hct]
        exact List.mem_cons_self _ _
      have hc0q : c0 ≠ '?' := (splitOnFirst_fst_mem hc0mem).2
      have hc0pq := (splitOnFirst_fst_mem hc0mem).1
      have hc0hash : c0 ≠ '#' := (splitOnFirst_fst_mem hc0pq).2
      have hpre : (splitOnFirst '?'
          (splitOnFirst '#' (spanUntil isAuthEnd (List.drop 2 rest)).2).1).1 <+:
          (spanUntil isAuthEnd (List.drop 2 rest)).2 :=
        List.IsPrefix.trans splitOnFirst_fst_prefix splitOnFirst_fst_prefix
      obtain ⟨t2, ht2⟩ := prefix_head hpre hct
      rcases @spanUntil_snd_head isAuthEnd (List.drop 2 rest) with hemp | ⟨c1, t1, he1, hp1⟩
      · rw [hemp] at ht2
        exact absurd ht2.symm (List.cons_ne_nil c0 t2)
      · rw [he1] at ht2
        injection ht2 with hcc _
        rw [hcc] at hp1
        have hc0or : c0 = '/' ∨ c0 = '?' ∨ c0 = '#' := by
          unfold isAuthEnd at hp1
          simpa using hp1
        rcases hc0or with rfl | h | h
        · exact path_pipeline_slashLed hct
        · exact absurd h hc0q
        · exact absurd h hc0hash
  obtain ⟨hQNFu, t0, hslu⟩ := hupath
  obtain ⟨hQNFv, t, hT⟩ := normalize_path_facts hQNFu hslu
  rw [hT] at hdots
  have huhost : ∀ c ∈ u.host, keepChar c = true ∧ c.toNat < 256 ∧
      Char.toLower c = c ∧ c ≠ ':' ∧ c ≠ '@' ∧ isAuthEnd c = false := by
    rw [← hu]
    exact hhost
  have huhostne : u.host ≠ [] := by
    rw [← hu]
    intro he
    exact hhne (by simpa using he)
  have hqcore : ∀ q', (URL.normalize u).query = some q' →
      q' ≠ [] ∧ pctNormalize q' = q' ∧
        ∀ c ∈ q', keepChar c = true ∧ c.toNat < 256 ∧ c ≠ '#' := by
    intro q' hq'
    have hqm : u.query.map (fun q => joinAmp (List.mergeSort (splitAmp q) lexLe)) =
        some q' := hq'
    rw [← hu] at hqm
    dsimp only at hqm
    cases hrq : (splitOnFirst '?'
        (splitOnFirst '#' (spanUntil isAuthEnd (List.drop 2 rest)).2).1).2 with
    | none =>
      rw [hrq] at hqm
      simp at hqm
    | some q =>
      rw [hrq] at hqm
      dsimp only at hqm
      by_cases hpn : pctNormalize q = []
      · rw [if_pos hpn] at hqm
        simp at hqm
      · rw [if_neg hpn] at hqm
        simp only [Option.map] at hqm
        injection hqm with hqm'
        have hqchars : ∀ c ∈ pctNormalize q,
            keepChar c = true ∧ c.toNat < 256 ∧ c ≠ '#' := by
          apply pctNormalize_chars
          intro x hx
          have hx1 : x ∈ (splitOnFirst '#'
              (spanUntil isAuthEnd (List.drop 2 rest)).2).1 :=
            splitOnFirst_snd_mem hrq x hx
          obtain ⟨hx2, hxhash⟩ := splitOnFirst_fst_mem hx1
          have hx3 := spanUntil_snd_mem hx2
          have hx4 : x ∈ stripCW s :=
            splitOnFirst_snd_mem heqrest x (List.mem_of_mem_drop hx3)
          obtain ⟨hk, hlt⟩ := hbyte x hx4
          exact ⟨hk, hlt, hxhash⟩
        obtain ⟨hne, hchars⟩ := normalize_query_facts hpn hqchars
        rw [hqm'] at hne hchars
        exact ⟨hne, hquery q' hq', hchars⟩
  have hv : URL.normalize u = ⟨(URL.normalize u).host, (URL.normalize u).port,
      '/' :: t, (URL.normalize u).query⟩ := by
    rw [← hT]
  rw [hv]
  apply fromString_render_core
  · exact huhostne
  · exact huhost
  · exact hT ▸ hQNFv
  · exact hdots
  · exact hport
  · exact hqcore

set_option maxRecDepth 16384 in
/-- Witness for `C9_round_trip`: the URL `https://a/p?b=1` parses, its
canonical form satisfies the three provisos, and the round trip holds. -/
theorem C9_round_trip_witness :
    URL.fromString (URL.render (URL.normalize
      ⟨"a".data, none, "/p".data, some "b=1".data⟩)) =
      some (URL.normalize ⟨"a".data, none, "/p".data, some "b=1".data⟩) := by
  have epath : requote (rds (pctNormalize "/p".data)) = "/p".data := by
    have e1 : pctNormalize "/p".data = "/p".data := by simp [pctNormalize, hexVal]
    have e2 : rds "/p".data = "/p".data := by
      simp [rds, rdsLoop, takeSeg, dropLastSegment, spanUntil]
    have e3 : unquote "/p".data = "/p".data := by simp [unquote, hexVal]
    rw [e1, e2, requote, e3]
    simp [quote, quoteChar, isSafeChar, isSafeByte, isUnreservedByte]
  have eq1 : pctNormalize "b=1".data = "b=1".data := by simp [pctNormalize, hexVal]
  have hp : URL.fromString "https://a/p?b=1".data =
      some ⟨"a".data, none, "/p".data, some "b=1".data⟩ := by
    simp [URL.fromString, stripCW, keepChar, splitOnFirst, spanUntil, isAuthEnd,
      afterLastAt, parsePort, isDigitChar, digitsToNat, digitVal, Char.toLower,
      epath, eq1]
  have hn : URL.normalize ⟨"a".data, none, "/p".data, some "b=1".data⟩ =
      ⟨"a".data, none, "/p".data, some "b=1".data⟩ := by
    unfold URL.normalize
    dsimp only [Option.map]
    rw [show splitAmp "b=1".data = ["b=1".data] from splitAmp_no_amp (by decide)]
    simp [joinAmp, rstripSlash]
  refine C9_round_trip "https://a/p?b=1".data _ hp ?_ ?_ ?_
  · rw [hn]
    simp [noDots, takeSeg, spanUntil]
  · rw [hn]
    simp
  · rw [hn]
    intro q hq
    have h2 : "b=1".data = q := Option.some.inj hq
    rw [← h2]
    exact eq1

end Crawler
